import Mathlib

/-!
# Verification of the Z-coordinate correction engine

A shallow embedding, in Lean 4, of the geometry-correction engine of
`z_coordinate_corrector_enhanced.py`.  Coordinates are modelled as
rationals (the Python code performs exact comparisons, `min`/`max` and
field arithmetic on IEEE doubles; no claim under scrutiny depends on
rounding, so the field `ℚ` is a faithful carrier).  Each definition
mirrors one Python function; the single encoding convention used below
is that a comparison `math.sqrt d < tol` (with `d ≥ 0`) is embedded as
`0 < tol ∧ d < tol * tol`, which is equivalent over the reals.

Geometries are the vertex lists produced by `parse_wkt` (an ordered
list of `(x, y, z)` triples); the WKT round trip itself is not under
test, so features carry the parsed list directly.
-/

namespace ZCC

/-- A 3-D vertex, as produced by `parse_wkt`. -/
structure Vtx where
  x : ℚ
  y : ℚ
  z : ℚ
deriving DecidableEq, Repr

/-- The epsilon `1e-10` used by the node-building filters, the degenerate
segment guards, and the contour comparison. -/
def eps10 : ℚ := 1 / 10 ^ 10

/-- The default tolerance `1e-6` of `get_z` / `update_z` /
`get_z_at_exact_point_on_line`. -/
def tolDefault : ℚ := 1 / 10 ^ 6

/-- `point_on_segment(px, py, x1, y1, x2, y2, tolerance)` (lines
1766-1812): projects the point onto the segment and compares the squared
distance with `tolerance²`; a zero-length segment short-circuits to a
direct distance test against the first endpoint, performing no
division. -/
def point_on_segment (px py x1 y1 x2 y2 tol : ℚ) : Bool :=
  let dx := x2 - x1
  let dy := y2 - y1
  let dpx := px - x1
  let dpy := py - y1
  let len_sq := dx * dx + dy * dy
  if len_sq = 0 then
    if tol = 0 then decide (dpx = 0 ∧ dpy = 0)
    else decide (dpx * dpx + dpy * dpy ≤ tol * tol)
  else
    let t := (dpx * dx + dpy * dy) / len_sq
    if t < 0 ∨ 1 < t then false
    else
      let cx := x1 + t * dx
      let cy := y1 + t * dy
      let dist_sq := (px - cx) * (px - cx) + (py - cy) * (py - cy)
      if tol = 0 then decide (dist_sq = 0) else decide (dist_sq ≤ tol * tol)

/-- The pure distance test the zero-length branch of `point_on_segment`
reduces to: exact coincidence when the tolerance is `0`, otherwise
squared distance at most `tolerance²`. -/
def zero_len_dist_test (d tol : ℚ) : Bool :=
  if tol = 0 then decide (d = 0) else decide (d ≤ tol * tol)

/-- `get_segment_parameter(px, py, x1, y1, x2, y2)` (lines 1814-1825):
the projection parameter, `0` for (near-)degenerate segments. -/
def get_segment_parameter (px py x1 y1 x2 y2 : ℚ) : ℚ :=
  let dx := x2 - x1
  let dy := y2 - y1
  let dpx := px - x1
  let dpy := py - y1
  let len_sq := dx * dx + dy * dy
  if len_sq < eps10 then 0
  else (dpx * dx + dpy * dy) / len_sq

/-- The per-segment containment test shared by `get_z` (lines 3138-3176)
and `update_z` (lines 3201-3234): parameter along the dominant axis,
range check against `[-tol, 1+tol]`, clamp, then distance to the
reconstructed point below `tol`.  Returns the clamped parameter when the
segment matches.  The Python `math.sqrt dist_sq < tol` is embedded as
`0 < tol ∧ dist_sq < tol * tol`. -/
def seg_match (x y tol x1 y1 x2 y2 : ℚ) : Option ℚ :=
  let dx := x2 - x1
  let dy := y2 - y1
  if |dx| < eps10 ∧ |dy| < eps10 then none
  else
    let t := if |dy| < |dx| then (x - x1) / dx else (y - y1) / dy
    if t < -tol ∨ 1 + tol < t then none
    else
      let t2 := max 0 (min 1 t)
      let px := x1 + t2 * dx
      let py := y1 + t2 * dy
      if 0 < tol ∧ (px - x) * (px - x) + (py - y) * (py - y) < tol * tol then
        some t2
      else none

/-- The exact vertex scan of `get_z` (lines 3133-3135): the first vertex
whose XY equals the query exactly (no tolerance). -/
def find_exact_vtx (x y : ℚ) : List Vtx → Option Vtx
  | [] => none
  | v :: vs => if v.x = x ∧ v.y = y then some v else find_exact_vtx x y vs

/-- The segment scan of `get_z` (lines 3138-3176): walk consecutive
vertex pairs, return the interpolated `z1 + t*(z2-z1)` at the first
matching segment. -/
def seg_scan_z (x y tol : ℚ) : List Vtx → Option ℚ
  | p1 :: p2 :: rest =>
    (seg_match x y tol p1.x p1.y p2.x p2.y).elim
      (seg_scan_z x y tol (p2 :: rest))
      (fun t => some (p1.z + t * (p2.z - p1.z)))
  | _ => none

/-- `get_z(geom, x, y, tol=1e-6)` (lines 3122-3178): exact vertex match
first, then first-segment interpolation, else `None`. -/
def get_z (coords : List Vtx) (x y tol : ℚ) : Option ℚ :=
  (find_exact_vtx x y coords).elim (seg_scan_z x y tol coords)
    (fun v => some v.z)

/-- The tolerance vertex scan of `get_z_at_exact_point_on_line`
(lines 1843-1845): the first vertex within `tolerance` of the query in
both coordinates. -/
def find_tol_vtx (x y tol : ℚ) : List Vtx → Option Vtx
  | [] => none
  | v :: vs =>
    if |v.x - x| < tol ∧ |v.y - y| < tol then some v else find_tol_vtx x y tol vs

/-- The segment scan of `get_z_at_exact_point_on_line` (lines
1848-1860): `point_on_segment`, then interpolate with
`get_segment_parameter`. -/
def seg_scan_exact (x y tol : ℚ) : List Vtx → Option ℚ
  | p1 :: p2 :: rest =>
    if point_on_segment x y p1.x p1.y p2.x p2.y tol then
      some (p1.z + get_segment_parameter x y p1.x p1.y p2.x p2.y * (p2.z - p1.z))
    else seg_scan_exact x y tol (p2 :: rest)
  | _ => none

/-- `get_z_at_exact_point_on_line(geom, x, y, tolerance=1e-6)` (lines
1827-1862): tolerance vertex match, then segment interpolation, and a
numeric `0.0` fallback when nothing matches. -/
def get_z_at_exact_point_on_line (coords : List Vtx) (x y tol : ℚ) : ℚ :=
  (find_tol_vtx x y tol coords).elim
    ((seg_scan_exact x y tol coords).getD 0)
    (fun v => v.z)

/-- The body of the `update_z` loop (lines 3192-3234).  The Boolean
argument is the running `updated` flag: an exact XY match replaces the
vertex Z (and sets the flag); otherwise, while the flag is unset and a
next vertex exists, a matching segment receives an inserted
`(x, y, new_z)` vertex right after the current one. -/
def update_z_loop (x y nz tol : ℚ) : List Vtx → Bool → List Vtx × Bool
  | [], u => ([], u)
  | [v], u =>
    if v.x = x ∧ v.y = y then ([⟨v.x, v.y, nz⟩], true) else ([v], u)
  | v :: w :: rest, u =>
    if v.x = x ∧ v.y = y then
      let r := update_z_loop x y nz tol (w :: rest) true
      (⟨v.x, v.y, nz⟩ :: r.1, r.2)
    else if !u ∧ (seg_match x y tol v.x v.y w.x w.y).isSome then
      let r := update_z_loop x y nz tol (w :: rest) true
      (v :: ⟨x, y, nz⟩ :: r.1, r.2)
    else
      let r := update_z_loop x y nz tol (w :: rest) u
      (v :: r.1, r.2)

/-- `update_z(geom, x, y, new_z, tol=1e-6)` (lines 3180-3248), at the
coordinate level: the new coordinate list together with the warning flag
(`true` exactly when the closing `if not updated` branch prints its
diagnostic warning; the geometry is then re-encoded unchanged). -/
def update_z (coords : List Vtx) (x y nz tol : ℚ) : List Vtx × Bool :=
  let r := update_z_loop x y nz tol coords false
  (r.1, !r.2)

/-- The segment walk of `insert_vertex_at_exact_point` (lines
1738-1749): emit each vertex, following it with the new `(x, y, z)`
vertex whenever `point_on_segment` accepts the crossing point on the
segment it starts; the final vertex is appended by the caller. -/
def insert_loop (x y z tol : ℚ) : List Vtx → List Vtx
  | p1 :: p2 :: rest =>
    p1 :: (if point_on_segment x y p1.x p1.y p2.x p2.y tol then
      [Vtx.mk x y z] else []) ++ insert_loop x y z tol (p2 :: rest)
  | _ => []

/-- The prefix of the `insert_vertex_at_exact_point` walk contributed by
the vertices strictly before a distinguished vertex `q` (used to state
where the walk places the inserted vertex). -/
def insert_chunks (x y z tol : ℚ) : List Vtx → Vtx → List Vtx
  | [], _ => []
  | [a], q =>
    a :: (if point_on_segment x y a.x a.y q.x q.y tol then
      [Vtx.mk x y z] else [])
  | a :: b :: rest, q =>
    a :: (if point_on_segment x y a.x a.y b.x b.y tol then
      [Vtx.mk x y z] else []) ++ insert_chunks x y z tol (b :: rest) q

/-- Whether some consecutive segment of the line passes
`point_on_segment`, i.e. the `vertex_inserted` flag of
`insert_vertex_at_exact_point`. -/
def any_seg (x y tol : ℚ) : List Vtx → Bool
  | p1 :: p2 :: rest =>
    point_on_segment x y p1.x p1.y p2.x p2.y tol || any_seg x y tol (p2 :: rest)
  | _ => false

/-- `insert_vertex_at_exact_point(geom, x, y, z, tolerance)` (lines
1732-1764): `none` when no segment accepted the point (the Python code
indexes `coords[-1]`, so it presupposes a nonempty coordinate list;
`none` is also returned here for the empty list the code never
receives). -/
def insert_vertex_at_exact_point (coords : List Vtx) (x y z tol : ℚ) :
    Option (List Vtx) :=
  match coords with
  | [] => none
  | c :: cs =>
    if any_seg x y tol (c :: cs) then
      some (insert_loop x y z tol (c :: cs) ++ [cs.getLastD c])
    else none

/-- `has_vertex_at(geom, x, y)` (lines 2416-2422): exact XY vertex
membership. -/
def has_vertex_at (coords : List Vtx) (x y : ℚ) : Bool :=
  coords.any (fun v => v.x == x && v.y == y)

/-- `vertex_exists(geom, x, y, tolerance)` (lines 1725-1730): vertex
membership within a per-axis tolerance. -/
def vertex_exists (coords : List Vtx) (x y tol : ℚ) : Bool :=
  coords.any (fun v => |v.x - x| < tol && |v.y - y| < tol)

/-- A feature: stable id plus parsed geometry. -/
structure Feature where
  fid : ℕ
  geom : List Vtx
deriving DecidableEq, Repr

/-- A layer: stable id plus features. -/
structure Layer where
  lid : ℕ
  feats : List Feature
deriving DecidableEq, Repr

/-- One occurrence recorded by the detection node index (lines
1274-1279). -/
structure NodeEntry where
  layer_id : ℕ
  fid : ℕ
  z : ℚ
deriving DecidableEq, Repr

/-- The occurrence list `nodes[(x, y)]` built by `run_detection` (lines
1264-1279): every vertex of every feature of every layer whose XY equals
the key exactly and whose `|z| > 1e-10`. -/
def detect_node_entries (layers : List Layer) (x y : ℚ) : List NodeEntry :=
  layers.flatMap fun L =>
    L.feats.flatMap fun f =>
      (f.geom.filter fun v => v.x = x ∧ v.y = y ∧ eps10 < |v.z|).map
        fun v => ⟨L.lid, f.fid, v.z⟩

/-- The single-layer occurrence list built identically by `quick_verify`
(lines 2665-2672) and `run_verification` (lines 2762-2769). -/
def verify_node_zs (L : Layer) (x y : ℚ) : List ℚ :=
  L.feats.flatMap fun f =>
    (f.geom.filter fun v => v.x = x ∧ v.y = y ∧ eps10 < |v.z|).map
      fun v => v.z

/-- A problem-node record of `nodes_csv` (lines 1293-1304). -/
structure NodeRec where
  x : ℚ
  y : ℚ
  entries : List NodeEntry
  z_min : ℚ
  z_max : ℚ
deriving DecidableEq, Repr

/-- Build the problem record for a node from its occurrence list, with
`z_min`/`z_max` as in lines 1301-1302 (the list is nonempty whenever the
record is built; `0` is a junk default). -/
def mk_node_rec (x y : ℚ) (es : List NodeEntry) : NodeRec :=
  ⟨x, y, es, ((es.map NodeEntry.z).min?).getD 0, ((es.map NodeEntry.z).max?).getD 0⟩

/-- The smart-zero target selection of `apply_internal` (lines
2017-2030): `z_max` when `z_min` is exactly `0` and `z_max` is not,
otherwise `z_min`. -/
def internal_target (n : NodeRec) : ℚ :=
  if n.z_min = 0 ∧ n.z_max ≠ 0 then n.z_max else n.z_min

/-- The smart-zero target selection of `apply_external` (lines
2221-2229). -/
def external_target (z1 z2 : ℚ) : ℚ :=
  let z_min := min z1 z2
  let z_max := max z1 z2
  if z_min = 0 ∧ z_max ≠ 0 then z_max else z_min

/-- Python truthiness of an optional float, as used by the
`if z_line and z_cont` filters (lines 2473, 2578, 2810): `None` and
`0.0` are both falsy. -/
def truthy : Option ℚ → Bool
  | none => false
  | some q => decide (q ≠ 0)

/-- A contour mismatch record (lines 2579-2585). -/
structure CIssue where
  x : ℚ
  y : ℚ
  z_old : ℚ
  z_contour : ℚ
deriving DecidableEq, Repr

/-- The per-intersection-point filter shared by `detect_contour_issues`
(lines 2470-2481), `apply_contour` (lines 2575-2585) and
`run_verification` (lines 2807-2814): record an issue only when both
`get_z` results are truthy (found AND nonzero) and the Z difference
exceeds `1e-10`. -/
def contour_issue_at (geom cgeom : List Vtx) (x y : ℚ) : Option CIssue :=
  let z_line := get_z geom x y tolDefault
  let z_cont := get_z cgeom x y tolDefault
  if truthy z_line ∧ truthy z_cont ∧ eps10 < |z_line.getD 0 - z_cont.getD 0| then
    some ⟨x, y, z_line.getD 0, z_cont.getD 0⟩
  else none

/-- The correction `apply_contour` performs for one recorded issue
(line 2603): `update_z` with the contour's Z, exactly. -/
def apply_contour_issue (geom : List Vtx) (i : CIssue) : List Vtx :=
  (update_z geom i.x i.y i.z_contour tolDefault).1

/-- One layer's part of an undo snapshot (lines 1880-1891): layer id
plus every feature's geometry keyed by feature id.  (The stored WKT
string is represented by the parsed coordinate list; the WKT round trip
is lossless for the triples present.) -/
structure SnapLayer where
  layer_id : ℕ
  feats : List (ℕ × List Vtx)
deriving DecidableEq, Repr

/-- The engine's session state: the project's layers and the undo stack.
(The entry's `type`/`timestamp` metadata and the parallel
`correction_history` audit list are carried by no claim under test and
are omitted.) -/
structure Session where
  layers : List Layer
  undo_stack : List (List SnapLayer)
deriving DecidableEq, Repr

/-- `max_undo_levels` (line 48). -/
def max_undo_levels : ℕ := 10

/-- Snapshot of one layer: every feature's geometry, keyed by id
(lines 1886-1889). -/
def snapshot_layer (L : Layer) : SnapLayer :=
  ⟨L.lid, L.feats.map fun f => (f.fid, f.geom)⟩

/-- `save_undo_state(correction_type, affected_layers)` (lines
1868-1902): push the snapshot of every affected layer, then evict the
oldest entry when the stack exceeds `max_undo_levels`. -/
def save_undo_state (affected : List Layer) (s : Session) : Session :=
  let st := s.undo_stack ++ [affected.map snapshot_layer]
  { s with undo_stack := if max_undo_levels < st.length then st.tail else st }

/-- `QgsProject.instance().mapLayer(layer_id)`: the project's layer with
the given id (ids are unique in a project; the first match). -/
def get_layer (s : Session) (lid : ℕ) : Option Layer :=
  s.layers.find? fun L => L.lid == lid

/-- `layer.getFeature(fid)` restricted to validity: the feature with the
given id, when present. -/
def get_feat (L : Layer) (fid : ℕ) : Option Feature :=
  L.feats.find? fun f => f.fid == fid

/-- `layer.changeGeometry(fid, geom)`: replace the geometry of the
feature with the given id (no-op when the id is absent). -/
def set_geom (L : Layer) (fid : ℕ) (g : List Vtx) : Layer :=
  { L with feats := L.feats.map fun f => if f.fid = fid then { f with geom := g } else f }

/-- `changeGeometry` lifted to the session: applied to the layer with
the given id. -/
def set_layer_geom (s : Session) (lid fid : ℕ) (g : List Vtx) : Session :=
  { s with layers := s.layers.map fun L => if L.lid = lid then set_geom L fid g else L }

/-- Restore one snapshot layer (lines 1918-1934): skip when the layer no
longer exists, otherwise write back every stored feature geometry (only
valid feature ids take effect). -/
def restore_snap_layer (s : Session) (sl : SnapLayer) : Session :=
  if (get_layer s sl.layer_id).isSome then
    sl.feats.foldl (fun st pr => set_layer_geom st sl.layer_id pr.1 pr.2) s
  else s

/-- `undo_last_correction` (lines 1904-1955): nothing happens on an
empty stack; otherwise pop the newest entry and restore each of its
layers. -/
def undo_last_correction (s : Session) : Session :=
  (s.undo_stack.getLast?).elim s fun entry =>
    entry.foldl restore_snap_layer { s with undo_stack := s.undo_stack.dropLast }

/-- First-occurrence deduplication, matching the
`if layer not in affected_layers: append` accumulation of lines
1993-1999. -/
def dedup_first : List ℕ → List ℕ
  | [] => []
  | a :: l => a :: dedup_first (l.filter fun b => b ≠ a)
termination_by l => l.length
decreasing_by
  simpa using Nat.lt_succ_of_le (List.length_filter_le _ l)

/-- Every layer id referenced by any node entry, in order, with
repetitions. -/
def all_lids (nodes : List NodeRec) : List ℕ :=
  nodes.flatMap fun n => n.entries.map NodeEntry.layer_id

/-- The affected-layer ids collected by `apply_internal` (lines
1993-1999): every entry's layer id that resolves in the project, first
occurrences only. -/
def affected_lids (nodes : List NodeRec) (s : Session) : List ℕ :=
  dedup_first ((all_lids nodes).filter fun lid => (get_layer s lid).isSome)

/-- The affected layers themselves, in collection order. -/
def affected_layers (nodes : List NodeRec) (s : Session) : List Layer :=
  (affected_lids nodes s).filterMap (get_layer s)

/-- One correction step of `apply_internal` (lines 2033-2059): entries
whose detection-time Z already equals the target are skipped; otherwise
the feature's current geometry receives `update_z` at the node's XY with
the target Z (missing layers and invalid features are skipped with a
warning). -/
def apply_entry (x y tz : ℚ) (s : Session) (e : NodeEntry) : Session :=
  if e.z ≠ tz then
    (get_layer s e.layer_id).elim s fun L =>
      (get_feat L e.fid).elim s fun f =>
        set_layer_geom s e.layer_id e.fid (update_z f.geom x y tz tolDefault).1
  else s

/-- All corrections of one problem node. -/
def apply_node (s : Session) (n : NodeRec) : Session :=
  n.entries.foldl (apply_entry n.x n.y (internal_target n)) s

/-- `apply_internal` (lines 1973-2134): an empty detection list returns
immediately (line 1982); otherwise the undo state of every affected
layer is saved first and every node is then corrected toward its
smart-zero target. -/
def apply_internal (nodes : List NodeRec) (s : Session) : Session :=
  if nodes = [] then s
  else
    let s1 := save_undo_state (affected_layers nodes s) s
    nodes.foldl apply_node s1

/-- One cross-layer intersection record of `find_layer_intersections`
(lines 2400-2412); the intersection points themselves come from the
host geometry library and are taken as given. -/
structure Inter where
  layer1_id : ℕ
  layer2_id : ℕ
  fid1 : ℕ
  fid2 : ℕ
  x : ℚ
  y : ℚ
  z1 : ℚ
  z2 : ℚ
deriving DecidableEq, Repr

/-- One side of an external correction (lines 2246-2300): update the
vertex Z when a vertex already sits at the point and its detection-time
Z differs from the target, otherwise insert a vertex there with
tolerance `0`. -/
def apply_inter_side (x y tz zside : ℚ) (lid fid : ℕ) (s : Session) : Session :=
  (get_layer s lid).elim s fun L =>
    (get_feat L fid).elim s fun f =>
      if has_vertex_at f.geom x y then
        if zside ≠ tz then
          set_layer_geom s lid fid (update_z f.geom x y tz tolDefault).1
        else s
      else
        (insert_vertex_at_exact_point f.geom x y tz 0).elim s
          (set_layer_geom s lid fid)

/-- One intersection of `apply_external` (lines 2213-2300): skipped
whole when either layer is missing (lines 2235-2236); otherwise both
sides are corrected toward the smart-zero minimum. -/
def apply_inter (s : Session) (it : Inter) : Session :=
  if (get_layer s it.layer1_id).isSome ∧ (get_layer s it.layer2_id).isSome then
    let tz := external_target it.z1 it.z2
    apply_inter_side it.x it.y tz it.z2 it.layer2_id it.fid2
      (apply_inter_side it.x it.y tz it.z1 it.layer1_id it.fid1 s)
  else s

/-- `apply_external` (lines 2137-2356) over the intersection list the
host geometry library produced: note that no undo state is saved
anywhere in the function. -/
def apply_external (inters : List Inter) (s : Session) : Session :=
  inters.foldl apply_inter s

/-- One contour issue applied by `apply_contour` (lines 2599-2604):
`update_z` with the contour's Z on the feature's current geometry. -/
structure LIssue where
  lid : ℕ
  fid : ℕ
  x : ℚ
  y : ℚ
  z_contour : ℚ
deriving DecidableEq, Repr

/-- Apply one contour issue (lines 2600-2604). -/
def apply_lissue (s : Session) (i : LIssue) : Session :=
  (get_layer s i.lid).elim s fun L =>
    (get_feat L i.fid).elim s fun f =>
      set_layer_geom s i.lid i.fid (update_z f.geom i.x i.y i.z_contour tolDefault).1

/-- `apply_contour` (lines 2532-2649) over the issue list produced from
the host library's intersection points: again no undo state is saved
anywhere in the function. -/
def apply_contour (issues : List LIssue) (s : Session) : Session :=
  issues.foldl apply_lissue s

/-- The per-feature effect of writing back one stored geometry keyed by
feature id (the body of `changeGeometry` during restore). -/
def restore_feat (f : Feature) (prs : List (ℕ × List Vtx)) : Feature :=
  prs.foldl (fun f pr => if f.fid = pr.1 then { f with geom := pr.2 } else f) f

/-- Restoring a stored feature map onto one layer: successive
`changeGeometry` calls. -/
def restore_feats (L : Layer) (prs : List (ℕ × List Vtx)) : Layer :=
  prs.foldl (fun L pr => set_geom L pr.1 pr.2) L

/-- The shape of a layer ignored by geometry edits: its id and its
feature ids in order. -/
def layer_skel (L : Layer) : ℕ × List ℕ := (L.lid, L.feats.map Feature.fid)

/-- The shape of a session's layer list. -/
def sess_skel (s : Session) : List (ℕ × List ℕ) := s.layers.map layer_skel

/-- The relation maintained by the mutation phase of `apply_internal`
between a current layer and its pre-correction original: geometry edits
never change ids or order, and a layer whose id is outside the affected
set is never touched. -/
def mut_rel (aff : List ℕ) (M L0 : Layer) : Prop :=
  layer_skel M = layer_skel L0 ∧ (L0.lid ∉ aff → M = L0)

/-- `mut_rel` over whole sessions, layer by layer. -/
def mut_inv (aff : List ℕ) (s0 st : Session) : Prop :=
  List.Forall₂ (mut_rel aff) st.layers s0.layers

/-- The node keys scanned by the verification passes: every XY carrying
at least one vertex with `|z| > 1e-10` (the key set of the
`defaultdict`). -/
def node_keys (L : Layer) : List (ℚ × ℚ) :=
  (L.feats.flatMap fun f =>
    (f.geom.filter fun v => eps10 < |v.z|).map fun v => (v.x, v.y)).dedup

/-- The residual internal mismatches of `quick_verify` /
`run_verification` (lines 2771-2778): node keys holding more than one
distinct Z. -/
def internal_issue_keys (L : Layer) : List (ℚ × ℚ) :=
  (node_keys L).filter fun p => 1 < ((verify_node_zs L p.1 p.2).dedup).length

/-- The count `len(internal_issues)` of `run_verification`. -/
def internal_issue_count (L : Layer) : ℕ := (internal_issue_keys L).length

/-- The residual contour mismatch count of `run_verification` (lines
2798-2816), over the intersection points `(geom, cgeom, x, y)` the host
geometry library reports. -/
def contour_issue_count (cpts : List (List Vtx × List Vtx × ℚ × ℚ)) : ℕ :=
  (cpts.filterMap fun q => contour_issue_at q.1 q.2.1 q.2.2.1 q.2.2.2).length

/-- The terminal acceptance test of `run_verification` (lines
2829-2861): `total_issues = len(internal) + len(contour)` and success
exactly when it is `0`; when no contour reference is configured the
contour list stays empty. -/
def run_verification_success (L : Layer)
    (contour : Option (List (List Vtx × List Vtx × ℚ × ℚ))) : Bool :=
  let internal := internal_issue_count L
  let cont := match contour with
    | none => 0
    | some cpts => contour_issue_count cpts
  decide (internal + cont = 0)

/-! ## Concrete inputs used by witnesses and counterexamples -/

/-- A project with one layer: feature 1 is a line through `(1,1,5)` and
`(2,2,9)`, feature 2 starts at `(1,1,3)`, so node `(1,1)` carries the
two distinct Z values `5` and `3`. -/
def c1_layers : List Layer :=
  [⟨1, [⟨1, [⟨1, 1, 5⟩, ⟨2, 2, 9⟩]⟩, ⟨2, [⟨1, 1, 3⟩, ⟨0, 9, 3⟩]⟩]⟩]

/-- A working line of constant Z `7` crossing `x = 5` at `(5, 0)`. -/
def c4_line : List Vtx := [⟨0, 0, 7⟩, ⟨10, 0, 7⟩]

/-- A contour line of Z exactly `0` crossing the working line at
`(5, 0)`. -/
def c4_contour : List Vtx := [⟨5, -5, 0⟩, ⟨5, 5, 0⟩]

/-- A contour line of Z `3` crossing the working line at `(5, 0)`. -/
def c4w_contour : List Vtx := [⟨5, -5, 3⟩, ⟨5, 5, 3⟩]

/-- A line whose Z climbs from `10` to `20` along the x axis. -/
def c5_line : List Vtx := [⟨0, 0, 10⟩, ⟨10, 0, 20⟩]

/-- A straight line with an interior vertex at `(5, 0)`. -/
def c6_line : List Vtx := [⟨0, 0, 1⟩, ⟨5, 0, 2⟩, ⟨10, 0, 3⟩]

/-- A two-layer project with an empty undo stack: layer 1 has a feature
with a vertex at `(5, 0)` of Z `5`, layer 2 crosses it there with Z
`2`. -/
def c2_session : Session :=
  ⟨[⟨1, [⟨1, [⟨5, 0, 5⟩, ⟨10, 0, 5⟩]⟩]⟩,
    ⟨2, [⟨1, [⟨5, -5, 2⟩, ⟨5, 0, 2⟩, ⟨5, 5, 2⟩]⟩]⟩], []⟩

/-- The cross-layer intersection of `c2_session` at `(5, 0)` with Z
values `5` and `2`. -/
def c2_inter : Inter := ⟨1, 2, 1, 1, 5, 0, 5, 2⟩

/-- The state of `c2_session` after the external correction: layer 1's
vertex `(5, 0)` was pulled down to Z `2`; the undo stack is still
empty. -/
def c2_mutated : Session :=
  ⟨[⟨1, [⟨1, [⟨5, 0, 2⟩, ⟨10, 0, 5⟩]⟩]⟩,
    ⟨2, [⟨1, [⟨5, -5, 2⟩, ⟨5, 0, 2⟩, ⟨5, 5, 2⟩]⟩]⟩], []⟩

/-- A one-layer project (two features meeting at node `(1,1)` with Z
values `5` and `3`) with an empty undo stack. -/
def c3_session : Session :=
  ⟨[⟨1, [⟨1, [⟨1, 1, 5⟩, ⟨2, 2, 7⟩]⟩, ⟨2, [⟨1, 1, 3⟩, ⟨9, 9, 3⟩]⟩]⟩], []⟩

/-- The detected problem node of `c3_session` at `(1,1)`. -/
def c3_nodes : List NodeRec :=
  [⟨1, 1, [⟨1, 1, 5⟩, ⟨1, 2, 3⟩], 3, 5⟩]

/-! ## Theorems -/

/-- Evaluation of the detection pass on `c1_layers` at node `(1,1)`. -/
theorem c1_detect_eval :
    detect_node_entries c1_layers 1 1 = [⟨1, 1, 5⟩, ⟨1, 2, 3⟩] := by
  norm_num [detect_node_entries, c1_layers, eps10, List.filter]

/-- C7: for every point `p`, endpoint `a` and tolerance, the zero-length
call `point_on_segment p a a tol` never reaches the division (the
`len_sq = 0` branch returns first, with no division in it) and its value
is a function of the squared distance from `p` to `a` alone: exact
coincidence with `a` when the tolerance is `0`, and `dist² ≤ tol²`
otherwise. -/
theorem point_on_segment_zero_length (px py ax ay tol : ℚ) :
    point_on_segment px py ax ay ax ay tol =
      zero_len_dist_test ((px - ax) * (px - ax) + (py - ay) * (py - ay)) tol := by
  unfold point_on_segment zero_len_dist_test
  have hlen : (ax - ax) * (ax - ax) + (ay - ay) * (ay - ay) = 0 := by ring
  rw [if_pos hlen]
  by_cases htol : tol = 0
  · rw [if_pos htol, if_pos htol]
    congr 1
    rw [eq_iff_iff]
    exact (mul_self_add_mul_self_eq_zero).symm
  · rw [if_neg htol, if_neg htol]

/-- C9: the final verification succeeds exactly when the residual
internal mismatch count and the residual contour mismatch count (zero by
construction when no contour reference is configured) are both zero; any
nonzero residual in either check yields failure. -/
theorem run_verification_success_iff (L : Layer)
    (contour : Option (List (List Vtx × List Vtx × ℚ × ℚ))) :
    run_verification_success L contour = true ↔
      internal_issue_count L = 0 ∧
        (match contour with
         | none => 0
         | some cpts => contour_issue_count cpts) = 0 := by
  simp only [run_verification_success, decide_eq_true_eq]
  exact Nat.add_eq_zero

/-- C1: for every detected problem node (at least two recorded
occurrences, more than one distinct Z), the target chosen by
`apply_internal` is the minimum of the node's recorded Z values, except
that the maximum is chosen when that minimum is exactly `0` and the
maximum is not; and, at the record level, a node whose Z values are
`{0, 5}` gets target `5`. -/
theorem internal_target_smart_zero (layers : List Layer) (x y : ℚ)
    (h2 : 2 ≤ (detect_node_entries layers x y).length)
    (hd : 1 < (((detect_node_entries layers x y).map NodeEntry.z).dedup).length) :
    (∃ zm zM,
      ((detect_node_entries layers x y).map NodeEntry.z).min? = some zm ∧
      ((detect_node_entries layers x y).map NodeEntry.z).max? = some zM ∧
      internal_target (mk_node_rec x y (detect_node_entries layers x y)) =
        if zm = 0 ∧ zM ≠ 0 then zM else zm) ∧
    internal_target (mk_node_rec 0 0 [⟨1, 1, 0⟩, ⟨1, 2, 5⟩]) = 5 := by
  constructor
  · rcases hes : detect_node_entries layers x y with _ | ⟨e, es⟩
    · rw [hes] at h2; simp at h2
    · refine ⟨((es.map NodeEntry.z).foldl min e.z),
        ((es.map NodeEntry.z).foldl max e.z), ?_, ?_, ?_⟩
      · simp [List.min?]
      · simp [List.max?]
      · simp [internal_target, mk_node_rec, List.min?, List.max?]
  · decide

/-- C10: each node-building pass (detection, quick verification, final
verification) records only vertex occurrences with `|z| > 1e-10`, so a
vertex with Z exactly `0` never enters any occurrence list, and the
minimum Z of a detected node is never `0`. -/
theorem node_building_excludes_zero_z :
    (∀ layers x y e, e ∈ detect_node_entries layers x y →
       eps10 < |e.z| ∧ e.z ≠ 0) ∧
    (∀ L x y z, z ∈ verify_node_zs L x y → eps10 < |z| ∧ z ≠ 0) ∧
    (∀ layers x y zm,
       ((detect_node_entries layers x y).map NodeEntry.z).min? = some zm →
       zm ≠ 0) := by
  have heps : (0 : ℚ) < eps10 := by norm_num [eps10]
  have hne : ∀ z : ℚ, eps10 < |z| → z ≠ 0 := by
    intro z hz h0
    rw [h0] at hz
    simp at hz
    exact absurd hz (not_lt.mpr heps.le)
  refine ⟨?_, ?_, ?_⟩
  · intro layers x y e he
    simp only [detect_node_entries, List.mem_flatMap, List.mem_map,
      List.mem_filter] at he
    obtain ⟨L, _, f, _, v, ⟨_, hv⟩, hev⟩ := he
    have : eps10 < |v.z| := by
      have := of_decide_eq_true hv
      exact this.2.2
    rw [← hev]
    exact ⟨this, hne _ this⟩
  · intro L x y z hz
    simp only [verify_node_zs, List.mem_flatMap, List.mem_map,
      List.mem_filter] at hz
    obtain ⟨f, _, v, ⟨_, hv⟩, hev⟩ := hz
    have : eps10 < |v.z| := by
      have := of_decide_eq_true hv
      exact this.2.2
    rw [← hev]
    exact ⟨this, hne _ this⟩
  · intro layers x y zm hzm
    have hmem : zm ∈ (detect_node_entries layers x y).map NodeEntry.z :=
      List.min?_mem (fun a b => min_choice a b) hzm
    obtain ⟨e, he, hez⟩ := List.mem_map.mp hmem
    simp only [detect_node_entries, List.mem_flatMap, List.mem_map,
      List.mem_filter] at he
    obtain ⟨L, _, f, _, v, ⟨_, hv⟩, hev⟩ := he
    have h1 : eps10 < |v.z| := (of_decide_eq_true hv).2.2
    rw [← hez, ← hev]
    exact hne _ h1

/-- Witness for C1: node `(1,1)` of `c1_layers` has occurrences with
Z values `5` and `3`; the chosen target is their minimum `3`. -/
theorem internal_target_smart_zero_witness :
    (∃ zm zM,
      ((detect_node_entries c1_layers 1 1).map NodeEntry.z).min? = some zm ∧
      ((detect_node_entries c1_layers 1 1).map NodeEntry.z).max? = some zM ∧
      internal_target (mk_node_rec 1 1 (detect_node_entries c1_layers 1 1)) =
        if zm = 0 ∧ zM ≠ 0 then zM else zm) ∧
    internal_target (mk_node_rec 0 0 [⟨1, 1, 0⟩, ⟨1, 2, 5⟩]) = 5 :=
  internal_target_smart_zero c1_layers 1 1
    (by rw [c1_detect_eval]; norm_num)
    (by rw [c1_detect_eval]; norm_num [List.dedup_cons_of_not_mem, List.dedup_nil])

/-- Witness for C10: the occurrence `(layer 1, fid 1, z = 5)` recorded at
node `(1,1)` of `c1_layers` has `|z| > 1e-10`, and the node's minimum Z
(`3`) is nonzero. -/
theorem node_building_excludes_zero_z_witness :
    (eps10 < |(5 : ℚ)| ∧ (5 : ℚ) ≠ 0) ∧ (3 : ℚ) ≠ 0 :=
  ⟨node_building_excludes_zero_z.1 c1_layers 1 1 ⟨1, 1, 5⟩
     (by rw [c1_detect_eval]; simp),
   node_building_excludes_zero_z.2.2 c1_layers 1 1 3
     (by rw [c1_detect_eval]; norm_num [List.min?])⟩

/-- C6 (failing input): asking `update_z` to set the Z of the existing
interior vertex `(5, 0)` of `c6_line` both inserts a duplicate vertex
`(5, 0, 9)` (the segment ending at the matching vertex contains the
query point, and that segment is inspected before the vertex is reached)
and replaces the vertex's Z — contradicting the function's own
docstring, which promises a plain Z update for an existing vertex. -/
theorem update_z_duplicates_existing_vertex :
    (⟨5, 0, 2⟩ : Vtx) ∈ c6_line ∧
    update_z c6_line 5 0 9 tolDefault =
      ([⟨0, 0, 1⟩, ⟨5, 0, 9⟩, ⟨5, 0, 9⟩, ⟨10, 0, 3⟩], false) := by
  refine ⟨by norm_num [c6_line], ?_⟩
  have hseg : seg_match 5 0 tolDefault 0 0 5 0 = some 1 := by
    norm_num [seg_match, eps10, tolDefault, min_def, max_def]
  rw [update_z, show c6_line = [⟨0, 0, 1⟩, ⟨5, 0, 2⟩, ⟨10, 0, 3⟩] from rfl]
  simp only [update_z_loop]
  norm_num [hseg]

/-- C5 (counterexample): the vertex `(0, 0, 10)` of `c5_line` lies within
tolerance (`1e-6`) of the query `(1e-7, 0)` — the code's own tolerance
vertex matcher `find_tol_vtx` selects it — yet `get_z` does not return
that vertex's Z of `10`: its vertex scan is exact-only, so it
interpolates `10 + 1e-7` instead.  Moreover, when nothing matches at
all, `get_z_at_exact_point_on_line` returns the numeric `0.0` rather
than an absent value. -/
theorem get_z_vertex_tolerance_cex :
    (|(0 : ℚ) - 1 / 10 ^ 7| < tolDefault ∧ |(0 : ℚ) - 0| < tolDefault) ∧
    find_tol_vtx (1 / 10 ^ 7) 0 tolDefault c5_line = some ⟨0, 0, 10⟩ ∧
    get_z c5_line (1 / 10 ^ 7) 0 tolDefault = some (10 + 1 / 10 ^ 7) ∧
    get_z c5_line (1 / 10 ^ 7) 0 tolDefault ≠ some 10 ∧
    find_tol_vtx 50 50 tolDefault c5_line = none ∧
    seg_scan_exact 50 50 tolDefault c5_line = none ∧
    get_z_at_exact_point_on_line c5_line 50 50 tolDefault = 0 := by
  have hseg : seg_match ((1 : ℚ) / 10 ^ 7) 0 tolDefault 0 0 10 0 =
      some (1 / 10 ^ 8) := by
    norm_num [seg_match, eps10, tolDefault, min_def, max_def]
  have hnoex : find_exact_vtx ((1 : ℚ) / 10 ^ 7) 0 c5_line = none := by
    norm_num [find_exact_vtx, c5_line]
  have hget : get_z c5_line ((1 : ℚ) / 10 ^ 7) 0 tolDefault =
      some (10 + 1 / 10 ^ 7) := by
    rw [get_z, hnoex, Option.elim_none,
      show c5_line = [⟨0, 0, 10⟩, ⟨10, 0, 20⟩] from rfl, seg_scan_z]
    dsimp only
    rw [hseg]
    dsimp only [Option.elim_some]
    norm_num
  have hfar_vtx : find_tol_vtx 50 50 tolDefault c5_line = none := by
    norm_num [find_tol_vtx, c5_line, tolDefault]
  have hfar_scan : seg_scan_exact 50 50 tolDefault c5_line = none := by
    norm_num [seg_scan_exact, point_on_segment, c5_line, tolDefault]
  refine ⟨by norm_num [tolDefault, abs_lt], ?_, hget, ?_, hfar_vtx, hfar_scan, ?_⟩
  · norm_num [find_tol_vtx, c5_line, tolDefault, abs_lt]
  · rw [hget]
    norm_num
  · rw [get_z_at_exact_point_on_line, hfar_vtx, Option.elim_none, hfar_scan]
    rfl

/-- C4 (counterexample): the working line and the contour intersect at
`(5, 0)` with Z values `7` and `0`, differing by far more than `1e-10`,
yet no contour issue is recorded (and hence no correction is applied):
the `if z_line and z_cont` filter treats the contour's Z of exactly `0`
as falsy and skips the point. -/
theorem contour_zero_z_skipped_cex :
    get_z c4_line 5 0 tolDefault = some 7 ∧
    get_z c4_contour 5 0 tolDefault = some 0 ∧
    eps10 < |(7 : ℚ) - 0| ∧
    contour_issue_at c4_line c4_contour 5 0 = none ∧
    contour_issue_count [(c4_line, c4_contour, 5, 0)] = 0 := by
  have hsegl : seg_match 5 0 tolDefault 0 0 10 0 = some (1 / 2) := by
    norm_num [seg_match, eps10, tolDefault, min_def, max_def]
  have hsegc : seg_match 5 0 tolDefault 5 (-5) 5 5 = some (1 / 2) := by
    norm_num [seg_match, eps10, tolDefault, min_def, max_def]
  have hgl : get_z c4_line 5 0 tolDefault = some 7 := by
    rw [get_z, show find_exact_vtx 5 0 c4_line = none by
        norm_num [find_exact_vtx, c4_line], Option.elim_none,
      show c4_line = [⟨0, 0, 7⟩, ⟨10, 0, 7⟩] from rfl, seg_scan_z]
    dsimp only
    rw [hsegl]
    dsimp only [Option.elim_some]
    norm_num
  have hgc : get_z c4_contour 5 0 tolDefault = some 0 := by
    rw [get_z, show find_exact_vtx 5 0 c4_contour = none by
        norm_num [find_exact_vtx, c4_contour], Option.elim_none,
      show c4_contour = [⟨5, -5, 0⟩, ⟨5, 5, 0⟩] from rfl, seg_scan_z]
    dsimp only
    rw [hsegc]
    dsimp only [Option.elim_some]
    norm_num
  have hissue : contour_issue_at c4_line c4_contour 5 0 = none := by
    rw [contour_issue_at]
    simp only [hgl, hgc]
    simp [truthy]
  refine ⟨hgl, hgc, by norm_num [eps10], hissue, ?_⟩
  simp [contour_issue_count, List.filterMap_cons, hissue]

/-- C4 (amended): an intersection point yields a contour issue exactly
when both `get_z` lookups succeed with nonzero values differing by more
than `1e-10`; and every recorded issue carries the contour's Z verbatim
and is applied as `update_z` with exactly that Z — no smart-zero or
min/max selection ever enters the contour path. -/
theorem contour_issue_spec (geom cgeom : List Vtx) (x y : ℚ) :
    ((contour_issue_at geom cgeom x y).isSome = true ↔
      ∃ zl zc, get_z geom x y tolDefault = some zl ∧ zl ≠ 0 ∧
        get_z cgeom x y tolDefault = some zc ∧ zc ≠ 0 ∧
        eps10 < |zl - zc|) ∧
    (∀ i, contour_issue_at geom cgeom x y = some i →
      get_z cgeom x y tolDefault = some i.z_contour ∧
      apply_contour_issue geom i = (update_z geom x y i.z_contour tolDefault).1) := by
  constructor
  · unfold contour_issue_at
    cases hgl : get_z geom x y tolDefault with
    | none => simp [truthy]
    | some zl =>
      cases hgc : get_z cgeom x y tolDefault with
      | none => simp [truthy]
      | some zc =>
        by_cases hl0 : zl = 0
        · subst hl0; simp [truthy]
        · by_cases hc0 : zc = 0
          · subst hc0; simp [truthy]
          · by_cases hdiff : eps10 < |zl - zc|
            · simp [truthy, hl0, hc0, hdiff]
            · simp [truthy, hl0, hc0, hdiff]
  · intro i hi
    unfold contour_issue_at at hi
    cases hgl : get_z geom x y tolDefault with
    | none => rw [hgl] at hi; simp [truthy] at hi
    | some zl =>
      cases hgc : get_z cgeom x y tolDefault with
      | none => rw [hgc] at hi; simp [truthy] at hi
      | some zc =>
        rw [hgl, hgc] at hi
        by_cases hcond : truthy (some zl) = true ∧ truthy (some zc) = true ∧
            eps10 < |(some zl).getD 0 - (some zc).getD 0|
        · rw [if_pos hcond] at hi
          cases hi
          exact ⟨by simp [hgc], rfl⟩
        · rw [if_neg hcond] at hi
          exact absurd hi (by simp)

/-- Witness for the amended C4: with a contour of Z `3`, the
intersection at `(5, 0)` is recorded as the issue `(5, 0, 7, 3)` and
applied as `update_z` with exactly `3`. -/
theorem contour_issue_spec_witness :
    get_z c4w_contour 5 0 tolDefault = some (⟨5, 0, 7, 3⟩ : CIssue).z_contour ∧
    apply_contour_issue c4_line ⟨5, 0, 7, 3⟩ =
      (update_z c4_line 5 0 (⟨5, 0, 7, 3⟩ : CIssue).z_contour tolDefault).1 :=
  (contour_issue_spec c4_line c4w_contour 5 0).2 ⟨5, 0, 7, 3⟩ (by
    have hsegc : seg_match 5 0 tolDefault 5 (-5) 5 5 = some (1 / 2) := by
      norm_num [seg_match, eps10, tolDefault, min_def, max_def]
    have hgl : get_z c4_line 5 0 tolDefault = some 7 := by
      rw [get_z, show find_exact_vtx 5 0 c4_line = none by
          norm_num [find_exact_vtx, c4_line], Option.elim_none,
        show c4_line = [⟨0, 0, 7⟩, ⟨10, 0, 7⟩] from rfl, seg_scan_z]
      dsimp only
      rw [show seg_match 5 0 tolDefault 0 0 10 0 = some (1 / 2) by
        norm_num [seg_match, eps10, tolDefault, min_def, max_def]]
      dsimp only [Option.elim_some]
      norm_num
    have hgc : get_z c4w_contour 5 0 tolDefault = some 3 := by
      rw [get_z, show find_exact_vtx 5 0 c4w_contour = none by
          norm_num [find_exact_vtx, c4w_contour], Option.elim_none,
        show c4w_contour = [⟨5, -5, 3⟩, ⟨5, 5, 3⟩] from rfl, seg_scan_z]
      dsimp only
      rw [hsegc]
      dsimp only [Option.elim_some]
      norm_num
    rw [contour_issue_at]
    simp only [hgl, hgc]
    norm_num [truthy, eps10])

/-- The exact vertex scan misses exactly when no vertex matches. -/
theorem find_exact_vtx_eq_none_iff (x y : ℚ) (l : List Vtx) :
    find_exact_vtx x y l = none ↔ ∀ v ∈ l, ¬(v.x = x ∧ v.y = y) := by
  induction l with
  | nil => simp [find_exact_vtx]
  | cons v vs ih =>
    by_cases h : v.x = x ∧ v.y = y
    · simp [find_exact_vtx, h]
    · simp only [find_exact_vtx, if_neg h, ih, List.mem_cons]
      constructor
      · intro ht u hu
        rcases hu with rfl | hu2
        · exact h
        · exact ht u hu2
      · intro ht u hu
        exact ht u (Or.inr hu)

/-- When some vertex matches exactly, the scan returns a matching
vertex of the list. -/
theorem find_exact_vtx_some_of_mem {x y : ℚ} {l : List Vtx}
    (h : ∃ v ∈ l, v.x = x ∧ v.y = y) :
    ∃ v, find_exact_vtx x y l = some v ∧ v ∈ l ∧ v.x = x ∧ v.y = y := by
  induction l with
  | nil => simp at h
  | cons w vs ih =>
    by_cases hw : w.x = x ∧ w.y = y
    · exact ⟨w, by simp [find_exact_vtx, hw], List.mem_cons_self w vs, hw⟩
    · obtain ⟨v, hv, hvxy⟩ := h
      rcases List.mem_cons.mp hv with rfl | hv2
      · exact absurd hvxy hw
      · obtain ⟨u, hu1, hu2, hu3⟩ := ih ⟨v, hv2, hvxy⟩
        exact ⟨u, by simp [find_exact_vtx, hw, hu1],
          List.mem_cons_of_mem _ hu2, hu3⟩

/-- The segment scan skips every leading failing segment and
interpolates on the first matching one. -/
theorem seg_scan_z_append (x y tol : ℚ) (pre : List Vtx) :
    ∀ (p1 p2 : Vtx) (rest : List Vtx) (t : ℚ),
      List.Chain' (fun a b => seg_match x y tol a.x a.y b.x b.y = none)
        (pre ++ [p1]) →
      seg_match x y tol p1.x p1.y p2.x p2.y = some t →
      seg_scan_z x y tol (pre ++ p1 :: p2 :: rest) =
        some (p1.z + t * (p2.z - p1.z)) := by
  induction pre with
  | nil =>
    intro p1 p2 rest t _ hm
    simp [seg_scan_z, hm]
  | cons a pre ih =>
    intro p1 p2 rest t hchain hm
    cases pre with
    | nil =>
      have hrel : seg_match x y tol a.x a.y p1.x p1.y = none :=
        (List.chain'_cons.mp hchain).1
      show seg_scan_z x y tol (a :: p1 :: p2 :: rest) = _
      rw [seg_scan_z, hrel, Option.elim_none]
      simp [seg_scan_z, hm]
    | cons b pre2 =>
      have hchain2 := List.chain'_cons.mp hchain
      show seg_scan_z x y tol (a :: (b :: pre2 ++ p1 :: p2 :: rest)) = _
      rw [show a :: (b :: pre2 ++ p1 :: p2 :: rest) =
        a :: b :: (pre2 ++ p1 :: p2 :: rest) from rfl]
      rw [seg_scan_z, hchain2.1, Option.elim_none]
      exact ih p1 p2 rest t hchain2.2 hm

/-- The segment scan fails when every consecutive segment fails. -/
theorem seg_scan_z_eq_none (x y tol : ℚ) :
    ∀ l : List Vtx,
      List.Chain' (fun a b => seg_match x y tol a.x a.y b.x b.y = none) l →
      seg_scan_z x y tol l = none := by
  intro l
  induction l with
  | nil => intro _; rfl
  | cons a l2 ih =>
    intro h
    cases l2 with
    | nil => rfl
    | cons b l3 =>
      have h2 := List.chain'_cons.mp h
      rw [seg_scan_z, h2.1, Option.elim_none]
      exact ih h2.2

/-- C5 (amended): `get_z` returns the matching vertex's Z on an exact
(zero-tolerance) vertex match; with no exact vertex match it
interpolates `z1 + t*(z2-z1)` on the first consecutive segment passing
the tolerance test, and returns `none` when every segment fails; the
companion `get_z_at_exact_point_on_line` (which does match vertices
within tolerance) returns the numeric `0`, not an absent value, when
neither a vertex nor a segment matches. -/
theorem get_z_spec (coords : List Vtx) (x y tol : ℚ) :
    ((∃ v ∈ coords, v.x = x ∧ v.y = y) →
      ∃ v ∈ coords, v.x = x ∧ v.y = y ∧ get_z coords x y tol = some v.z) ∧
    ((∀ v ∈ coords, ¬(v.x = x ∧ v.y = y)) →
      ∀ pre p1 p2 rest t, coords = pre ++ p1 :: p2 :: rest →
        List.Chain' (fun a b => seg_match x y tol a.x a.y b.x b.y = none)
          (pre ++ [p1]) →
        seg_match x y tol p1.x p1.y p2.x p2.y = some t →
        get_z coords x y tol = some (p1.z + t * (p2.z - p1.z))) ∧
    ((∀ v ∈ coords, ¬(v.x = x ∧ v.y = y)) →
      List.Chain' (fun a b => seg_match x y tol a.x a.y b.x b.y = none)
        coords →
      get_z coords x y tol = none) ∧
    (find_tol_vtx x y tol coords = none →
      seg_scan_exact x y tol coords = none →
      get_z_at_exact_point_on_line coords x y tol = 0) := by
  refine ⟨?_, ?_, ?_, ?_⟩
  · intro h
    obtain ⟨v, hfind, hmem, hxy⟩ := find_exact_vtx_some_of_mem h
    exact ⟨v, hmem, hxy.1, hxy.2, by rw [get_z, hfind, Option.elim_some]⟩
  · intro h pre p1 p2 rest t hco hchain hm
    rw [get_z, (find_exact_vtx_eq_none_iff x y coords).mpr h, Option.elim_none,
      hco]
    exact seg_scan_z_append x y tol pre p1 p2 rest t hchain hm
  · intro h hchain
    rw [get_z, (find_exact_vtx_eq_none_iff x y coords).mpr h, Option.elim_none]
    exact seg_scan_z_eq_none x y tol coords hchain
  · intro h1 h2
    rw [get_z_at_exact_point_on_line, h1, Option.elim_none, h2]
    rfl

/-- Witness for the amended C5: an exact vertex hit, a mid-segment
interpolation (at `(5,0)` on `c5_line`, `t = 1/2`), a total miss
returning `none`, and the `0.0` fallback of the exact-point variant. -/
theorem get_z_spec_witness :
    (∃ v ∈ [(⟨1, 2, 3⟩ : Vtx)], v.x = 1 ∧ v.y = 2 ∧
        get_z [⟨1, 2, 3⟩] 1 2 tolDefault = some v.z) ∧
    get_z c5_line 5 0 tolDefault = some (10 + 1 / 2 * (20 - 10)) ∧
    get_z c5_line 50 50 tolDefault = none ∧
    get_z_at_exact_point_on_line c5_line 50 50 tolDefault = 0 := by
  refine ⟨(get_z_spec [⟨1, 2, 3⟩] 1 2 tolDefault).1 (by norm_num),
    (get_z_spec c5_line 5 0 tolDefault).2.1 (by norm_num [c5_line])
      [] ⟨0, 0, 10⟩ ⟨10, 0, 20⟩ [] (1 / 2) rfl (by simp)
      (by norm_num [seg_match, eps10, tolDefault, min_def, max_def]),
    (get_z_spec c5_line 50 50 tolDefault).2.2.1 (by norm_num [c5_line]) ?_,
    (get_z_spec c5_line 50 50 tolDefault).2.2.2
      (by norm_num [find_tol_vtx, c5_line, tolDefault])
      (by norm_num [seg_scan_exact, point_on_segment, c5_line, tolDefault])⟩
  rw [show c5_line = [⟨0, 0, 10⟩, ⟨10, 0, 20⟩] from rfl]
  refine List.chain'_cons.mpr ⟨?_, List.chain'_singleton _⟩
  norm_num [seg_match, eps10, tolDefault]

/-- The insertion walk distributes over a split of the coordinate
list at a distinguished vertex. -/
theorem insert_loop_append (x y z tol : ℚ) :
    ∀ (pre : List Vtx) (q : Vtx) (l : List Vtx),
      insert_loop x y z tol (pre ++ q :: l) =
        insert_chunks x y z tol pre q ++ insert_loop x y z tol (q :: l) := by
  intro pre
  induction pre with
  | nil => intro q l; simp [insert_chunks]
  | cons a pre ih =>
    intro q l
    cases pre with
    | nil => simp [insert_loop, insert_chunks]
    | cons b pre2 =>
      show insert_loop x y z tol (a :: b :: (pre2 ++ q :: l)) = _
      have h2 := ih q l
      rw [List.cons_append] at h2
      rw [insert_loop, h2, insert_chunks]
      simp [List.cons_append, List.append_assoc]

/-- All vertices but the last are kept, in order, by the insertion
walk. -/
theorem dropLast_sublist_insert_loop (x y z tol : ℚ) :
    ∀ (c : Vtx) (cs : List Vtx),
      ((c :: cs).dropLast).Sublist (insert_loop x y z tol (c :: cs)) := by
  intro c cs
  induction cs generalizing c with
  | nil => simp [insert_loop]
  | cons b cs2 ih =>
    rw [List.dropLast_cons₂, insert_loop, List.cons_append]
    exact List.Sublist.cons₂ c ((ih b).trans (List.sublist_append_right _ _))

/-- A nonempty list is its own `dropLast` followed by its last
element. -/
theorem cons_dropLast_getLastD (c : Vtx) (cs : List Vtx) :
    (c :: cs).dropLast ++ [cs.getLastD c] = c :: cs := by
  induction cs generalizing c with
  | nil => rfl
  | cons b cs2 ih =>
    rw [List.dropLast_cons₂, List.getLastD_cons, List.cons_append, ih]

/-- The last element of a nonempty list, read through any split ending
in at least two elements. -/
theorem getLastD_congr :
    ∀ (pre : List Vtx) (c p2 : Vtx) (cs rest : List Vtx) (p1 : Vtx),
      c :: cs = pre ++ p1 :: p2 :: rest → cs.getLastD c = rest.getLastD p2 := by
  intro pre
  induction pre with
  | nil =>
    intro c p2 cs rest p1 h
    injection h with h1 h2
    rw [h2, List.getLastD_cons]
  | cons b pre ih =>
    intro c p2 cs rest p1 h
    injection h with h1 h2
    cases cs with
    | nil => exact absurd h2.symm (by simp)
    | cons c2 cs2 =>
      rw [List.getLastD_cons]
      exact ih c2 p2 cs2 rest p1 h2

/-- A passing segment anywhere in the list makes `any_seg` report
`true`. -/
theorem any_seg_eq_true_of (x y tol : ℚ) :
    ∀ (pre : List Vtx) (p1 p2 : Vtx) (rest : List Vtx),
      point_on_segment x y p1.x p1.y p2.x p2.y tol = true →
      any_seg x y tol (pre ++ p1 :: p2 :: rest) = true := by
  intro pre
  induction pre with
  | nil => intro p1 p2 rest h; simp [any_seg, h]
  | cons a pre ih =>
    intro p1 p2 rest h
    cases pre with
    | nil =>
      show any_seg x y tol (a :: p1 :: p2 :: rest) = true
      rw [any_seg]
      simp [any_seg, h]
    | cons b pre2 =>
      show any_seg x y tol (a :: b :: (pre2 ++ p1 :: p2 :: rest)) = true
      rw [any_seg]
      have h2 := ih p1 p2 rest h
      rw [List.cons_append] at h2
      simp [h2]

/-- With every consecutive segment failing, `any_seg` reports
`false`. -/
theorem any_seg_eq_false_of (x y tol : ℚ) :
    ∀ l : List Vtx,
      (∀ pre p1 p2 rest, l = pre ++ p1 :: p2 :: rest →
        point_on_segment x y p1.x p1.y p2.x p2.y tol = false) →
      any_seg x y tol l = false := by
  intro l
  induction l with
  | nil => intro _; rfl
  | cons a l2 ih =>
    intro h
    cases l2 with
    | nil => rfl
    | cons b l3 =>
      rw [any_seg, h [] a b l3 rfl, Bool.false_or]
      apply ih
      intro pre p1 p2 rest hsplit
      exact h (a :: pre) p1 p2 rest (by rw [List.cons_append, ← hsplit])

/-- Appending the final vertex to the walk of a suffix starting at `p2`
produces a list starting with `p2`. -/
theorem insert_loop_head_last (x y z tol : ℚ) (p2 : Vtx) (rest : List Vtx) :
    ∃ l3, insert_loop x y z tol (p2 :: rest) ++ [rest.getLastD p2] =
      p2 :: l3 := by
  cases rest with
  | nil => exact ⟨[], rfl⟩
  | cons r rest2 =>
    refine ⟨(if point_on_segment x y p2.x p2.y r.x r.y tol then
        [Vtx.mk x y z] else []) ++
      (insert_loop x y z tol (r :: rest2) ++ [(rest2).getLastD r]), ?_⟩
    rw [insert_loop, List.getLastD_cons]
    simp [List.cons_append, List.append_assoc]

/-- C8: when the crossing point lies (by `point_on_segment`) on some
consecutive segment, `insert_vertex_at_exact_point` returns a new line
that contains every original vertex unchanged and in order (the
original list is a sublist of the result), with the new vertex
`(x, y, z)` placed directly between the endpoints of each segment the
point lies on; when the point lies on no segment the function returns
`none`. -/
theorem insert_vertex_frame (coords : List Vtx) (x y z tol : ℚ) :
    ((∃ pre p1 p2 rest, coords = pre ++ p1 :: p2 :: rest ∧
        point_on_segment x y p1.x p1.y p2.x p2.y tol = true) →
      ∃ l, insert_vertex_at_exact_point coords x y z tol = some l ∧
        coords.Sublist l ∧
        ∀ pre p1 p2 rest, coords = pre ++ p1 :: p2 :: rest →
          point_on_segment x y p1.x p1.y p2.x p2.y tol = true →
          ∃ l1 l2, l = l1 ++ p1 :: ⟨x, y, z⟩ :: p2 :: l2) ∧
    ((∀ pre p1 p2 rest, coords = pre ++ p1 :: p2 :: rest →
        point_on_segment x y p1.x p1.y p2.x p2.y tol = false) →
      insert_vertex_at_exact_point coords x y z tol = none) := by
  constructor
  · rintro ⟨pre0, q1, q2, rest0, hco, hpos0⟩
    obtain ⟨c, cs, hcs⟩ : ∃ c cs, coords = c :: cs := by
      cases pre0 with
      | nil => exact ⟨q1, q2 :: rest0, by simpa using hco⟩
      | cons a pre0' => exact ⟨a, pre0' ++ q1 :: q2 :: rest0, by simpa using hco⟩
    subst hcs
    have hany : any_seg x y tol (c :: cs) = true := by
      rw [hco]; exact any_seg_eq_true_of x y tol pre0 q1 q2 rest0 hpos0
    refine ⟨insert_loop x y z tol (c :: cs) ++ [cs.getLastD c], ?_, ?_, ?_⟩
    · simp [insert_vertex_at_exact_point, hany]
    · have h1 := (dropLast_sublist_insert_loop x y z tol c cs).append
        (List.Sublist.refl [cs.getLastD c])
      rwa [cons_dropLast_getLastD] at h1
    · intro pre p1 p2 rest hsplit hpos
      have hlast : cs.getLastD c = rest.getLastD p2 :=
        getLastD_congr pre c p2 cs rest p1 hsplit
      obtain ⟨l3, h3⟩ := insert_loop_head_last x y z tol p2 rest
      refine ⟨insert_chunks x y z tol pre p1, l3, ?_⟩
      rw [hsplit, hlast, insert_loop_append x y z tol pre p1 (p2 :: rest)]
      rw [insert_loop, if_pos hpos]
      rw [List.append_assoc]
      rw [show (p1 :: [Vtx.mk x y z]) ++ insert_loop x y z tol (p2 :: rest) =
        p1 :: Vtx.mk x y z :: insert_loop x y z tol (p2 :: rest) from rfl]
      simp only [List.cons_append, List.append_assoc, h3]
  · intro h
    cases coords with
    | nil => rfl
    | cons c cs =>
      have hany : any_seg x y tol (c :: cs) = false :=
        any_seg_eq_false_of x y tol (c :: cs) h
      simp [insert_vertex_at_exact_point, hany]

/-- Witness for C8: inserting `(5, 0, 2)` into the segment
`(0,0,1)-(10,0,1)` keeps both endpoints and places the new vertex
between them. -/
theorem insert_vertex_frame_witness :
    ∃ l, insert_vertex_at_exact_point [⟨0, 0, 1⟩, ⟨10, 0, 1⟩] 5 0 2
        tolDefault = some l ∧
      ([(⟨0, 0, 1⟩ : Vtx), ⟨10, 0, 1⟩]).Sublist l ∧
      ∀ pre p1 p2 rest,
        [(⟨0, 0, 1⟩ : Vtx), ⟨10, 0, 1⟩] = pre ++ p1 :: p2 :: rest →
        point_on_segment 5 0 p1.x p1.y p2.x p2.y tolDefault = true →
        ∃ l1 l2, l = l1 ++ p1 :: ⟨5, 0, 2⟩ :: p2 :: l2 :=
  (insert_vertex_frame [⟨0, 0, 1⟩, ⟨10, 0, 1⟩] 5 0 2 tolDefault).1
    ⟨[], ⟨0, 0, 1⟩, ⟨10, 0, 1⟩, [], rfl,
     by norm_num [point_on_segment, tolDefault]⟩

/-- A fold preserves any session observable each of its steps
preserves. -/
theorem foldl_obs_invariant {α β : Type} (g : Session → β)
    (f : Session → α → Session) (hf : ∀ st a, g (f st a) = g st) :
    ∀ (l : List α) (st : Session), g (l.foldl f st) = g st := by
  intro l
  induction l with
  | nil => intro st; rfl
  | cons a l ih => intro st; rw [List.foldl_cons, ih, hf]

/-- One internal-correction step never touches the undo stack. -/
theorem apply_entry_undo_stack (x y tz : ℚ) (st : Session) (e : NodeEntry) :
    (apply_entry x y tz st e).undo_stack = st.undo_stack := by
  unfold apply_entry
  split
  · cases get_layer st e.layer_id with
    | none => rfl
    | some L =>
      rw [Option.elim_some]
      cases get_feat L e.fid with
      | none => rfl
      | some f => rfl
  · rfl

/-- One node's corrections never touch the undo stack. -/
theorem apply_node_undo_stack (st : Session) (n : NodeRec) :
    (apply_node st n).undo_stack = st.undo_stack :=
  foldl_obs_invariant Session.undo_stack _
    (fun st e => apply_entry_undo_stack n.x n.y (internal_target n) st e)
    n.entries st

/-- One side of an external correction never touches the undo stack. -/
theorem apply_inter_side_undo_stack (x y tz zs : ℚ) (lid fid : ℕ)
    (st : Session) :
    (apply_inter_side x y tz zs lid fid st).undo_stack = st.undo_stack := by
  unfold apply_inter_side
  cases get_layer st lid with
  | none => rfl
  | some L =>
    rw [Option.elim_some]
    cases get_feat L fid with
    | none => rfl
    | some f =>
      rw [Option.elim_some]
      split
      · split
        · rfl
        · rfl
      · cases insert_vertex_at_exact_point f.geom x y tz 0 with
        | none => rfl
        | some g => rfl

/-- One external intersection never touches the undo stack. -/
theorem apply_inter_undo_stack (st : Session) (it : Inter) :
    (apply_inter st it).undo_stack = st.undo_stack := by
  unfold apply_inter
  split
  · rw [apply_inter_side_undo_stack, apply_inter_side_undo_stack]
  · rfl

/-- One contour issue never touches the undo stack. -/
theorem apply_lissue_undo_stack (st : Session) (i : LIssue) :
    (apply_lissue st i).undo_stack = st.undo_stack := by
  unfold apply_lissue
  cases get_layer st i.lid with
  | none => rfl
  | some L =>
    rw [Option.elim_some]
    cases get_feat L i.fid with
    | none => rfl
    | some f => rfl

/-- C2 (amended): only the internal correction saves an undo snapshot.
`apply_internal` (on a nonempty detection list) pushes the snapshot of
every feature geometry of every affected layer, captured from the
pre-mutation state, onto the bounded undo stack, and the mutation phase
leaves the stack alone; `apply_external` and `apply_contour` mutate
geometries while leaving the undo stack exactly as it was — no snapshot
is ever pushed for them. -/
theorem undo_snapshot_discipline :
    (∀ nodes s, nodes ≠ [] →
      (apply_internal nodes s).undo_stack =
        (save_undo_state (affected_layers nodes s) s).undo_stack) ∧
    (∀ A s, (save_undo_state A s).undo_stack =
      if max_undo_levels < (s.undo_stack ++ [A.map snapshot_layer]).length
      then (s.undo_stack ++ [A.map snapshot_layer]).tail
      else s.undo_stack ++ [A.map snapshot_layer]) ∧
    (∀ inters s, (apply_external inters s).undo_stack = s.undo_stack) ∧
    (∀ issues s, (apply_contour issues s).undo_stack = s.undo_stack) := by
  refine ⟨?_, fun A s => rfl, ?_, ?_⟩
  · intro nodes s hne
    unfold apply_internal
    rw [if_neg hne]
    exact foldl_obs_invariant Session.undo_stack apply_node
      apply_node_undo_stack nodes _
  · intro inters s
    exact foldl_obs_invariant Session.undo_stack apply_inter
      apply_inter_undo_stack inters s
  · intro issues s
    exact foldl_obs_invariant Session.undo_stack apply_lissue
      apply_lissue_undo_stack issues s

/-- Witness for the amended C2: applying the internal correction for
`c3_nodes` on `c3_session` leaves the stack exactly as `save_undo_state`
built it. -/
theorem undo_snapshot_discipline_witness :
    (apply_internal c3_nodes c3_session).undo_stack =
      (save_undo_state (affected_layers c3_nodes c3_session)
        c3_session).undo_stack :=
  undo_snapshot_discipline.1 c3_nodes c3_session (by simp [c3_nodes])

/-- Evaluation of the external correction on `c2_session`: the layer-1
vertex at `(5, 0)` is updated from Z `5` to the minimum `2`, layer 2 is
already at the target, and the undo stack stays empty. -/
theorem c2_apply_eval : apply_external [c2_inter] c2_session = c2_mutated := by
  have hupd : (update_z [(⟨5, 0, 5⟩ : Vtx), ⟨10, 0, 5⟩] 5 0 2 tolDefault).1 =
      [⟨5, 0, 2⟩, ⟨10, 0, 5⟩] := by
    simp only [update_z, update_z_loop]
    norm_num
  have hL1 : get_layer c2_session 1 =
      some ⟨1, [⟨1, [⟨5, 0, 5⟩, ⟨10, 0, 5⟩]⟩]⟩ := rfl
  have hL2 : get_layer c2_session 2 =
      some ⟨2, [⟨1, [⟨5, -5, 2⟩, ⟨5, 0, 2⟩, ⟨5, 5, 2⟩]⟩]⟩ := rfl
  have hv1 : has_vertex_at [(⟨5, 0, 5⟩ : Vtx), ⟨10, 0, 5⟩] 5 0 = true := by
    simp [has_vertex_at]
  have htz : external_target 5 2 = 2 := by
    norm_num [external_target, min_def, max_def]
  have hside1 : apply_inter_side 5 0 2 5 1 1 c2_session =
      ⟨[⟨1, [⟨1, [⟨5, 0, 2⟩, ⟨10, 0, 5⟩]⟩]⟩,
        ⟨2, [⟨1, [⟨5, -5, 2⟩, ⟨5, 0, 2⟩, ⟨5, 5, 2⟩]⟩]⟩], []⟩ := by
    rw [apply_inter_side, hL1, Option.elim_some,
      show get_feat ⟨1, [⟨1, [⟨5, 0, 5⟩, ⟨10, 0, 5⟩]⟩]⟩ 1 =
        some ⟨1, [⟨5, 0, 5⟩, ⟨10, 0, 5⟩]⟩ from rfl, Option.elim_some]
    rw [if_pos hv1, if_pos (by norm_num : (5 : ℚ) ≠ 2), hupd]
    rfl
  have hv2 : has_vertex_at [(⟨5, -5, 2⟩ : Vtx), ⟨5, 0, 2⟩, ⟨5, 5, 2⟩] 5 0 =
      true := by
    simp [has_vertex_at]
  simp only [apply_external, List.foldl_cons, List.foldl_nil]
  rw [apply_inter]
  rw [show c2_inter.layer1_id = 1 from rfl, show c2_inter.layer2_id = 2 from rfl,
    show c2_inter.fid1 = 1 from rfl, show c2_inter.fid2 = 1 from rfl,
    show c2_inter.x = 5 from rfl, show c2_inter.y = 0 from rfl,
    show c2_inter.z1 = 5 from rfl, show c2_inter.z2 = 2 from rfl]
  rw [if_pos (by rw [hL1, hL2]; exact ⟨rfl, rfl⟩), htz]
  show apply_inter_side 5 0 2 2 2 1 (apply_inter_side 5 0 2 5 1 1 c2_session) =
    c2_mutated
  rw [hside1]
  rw [apply_inter_side,
    show get_layer (⟨[⟨1, [⟨1, [⟨5, 0, 2⟩, ⟨10, 0, 5⟩]⟩]⟩,
      ⟨2, [⟨1, [⟨5, -5, 2⟩, ⟨5, 0, 2⟩, ⟨5, 5, 2⟩]⟩]⟩], []⟩ : Session) 2 =
      some ⟨2, [⟨1, [⟨5, -5, 2⟩, ⟨5, 0, 2⟩, ⟨5, 5, 2⟩]⟩]⟩ from rfl,
    Option.elim_some,
    show get_feat ⟨2, [⟨1, [⟨5, -5, 2⟩, ⟨5, 0, 2⟩, ⟨5, 5, 2⟩]⟩]⟩ 1 =
      some ⟨1, [⟨5, -5, 2⟩, ⟨5, 0, 2⟩, ⟨5, 5, 2⟩]⟩ from rfl, Option.elim_some]
  rw [if_pos hv2, if_neg (by norm_num : ¬((2 : ℚ) ≠ 2))]
  rfl

/-- C2 (counterexample): the external correction on `c2_session` mutates
layer 1's geometry, yet the undo stack before and after is the same
empty stack — no snapshot of any affected layer was pushed at any
point. -/
theorem external_mutates_without_snapshot_cex :
    (apply_external [c2_inter] c2_session).layers ≠ c2_session.layers ∧
    (apply_external [c2_inter] c2_session).undo_stack =
      c2_session.undo_stack := by
  rw [c2_apply_eval]
  refine ⟨fun h => ?_, rfl⟩
  simp only [c2_mutated, c2_session] at h
  norm_num at h

/-- C3 (counterexample): after the external correction on `c2_session`
(which pushed no snapshot), `undo_last_correction` finds an empty stack
and changes nothing, so the layers remain mutated: undo after a
correction operation does not restore the pre-correction state. -/
theorem undo_after_external_not_restored_cex :
    (undo_last_correction (apply_external [c2_inter] c2_session)).layers ≠
      c2_session.layers := by
  rw [c2_apply_eval,
    show undo_last_correction c2_mutated = c2_mutated from rfl]
  intro h
  simp only [c2_mutated, c2_session] at h
  norm_num at h

/-- Geometry writes keep a layer's id. -/
theorem set_geom_lid (L : Layer) (fid : ℕ) (g : List Vtx) :
    (set_geom L fid g).lid = L.lid := rfl

/-- Geometry writes keep a layer's id and feature-id sequence. -/
theorem set_geom_skel (L : Layer) (fid : ℕ) (g : List Vtx) :
    layer_skel (set_geom L fid g) = layer_skel L := by
  unfold layer_skel set_geom
  simp only [List.map_map]
  congr 1
  apply List.map_congr_left
  intro f _
  by_cases h : f.fid = fid
  · simp [h]
  · simp [h]

/-- Restores keep a layer's id. -/
theorem restore_feats_lid (prs : List (ℕ × List Vtx)) :
    ∀ L : Layer, (restore_feats L prs).lid = L.lid := by
  induction prs with
  | nil => intro L; rfl
  | cons pr prs ih =>
    intro L
    unfold restore_feats at *
    rw [List.foldl_cons, ih]
    rfl

/-- A targeted geometry write keeps the session's shape. -/
theorem set_layer_geom_skel (s : Session) (lid fid : ℕ) (g : List Vtx) :
    sess_skel (set_layer_geom s lid fid g) = sess_skel s := by
  unfold sess_skel set_layer_geom
  simp only [List.map_map]
  apply List.map_congr_left
  intro L _
  by_cases h : L.lid = lid
  · simp [Function.comp, h, set_geom_skel]
  · simp [Function.comp, h]

/-- `mapLayer` only returns a layer carrying the requested id. -/
theorem get_layer_lid {s : Session} {lid : ℕ} {L : Layer}
    (h : get_layer s lid = some L) : L.lid = lid := by
  have := List.find?_some h
  simpa using this

/-- `mapLayer` only returns layers of the project. -/
theorem get_layer_mem {s : Session} {lid : ℕ} {L : Layer}
    (h : get_layer s lid = some L) : L ∈ s.layers :=
  List.mem_of_find?_eq_some h

/-- Resolvability of a layer id depends only on the id list. -/
theorem get_layer_isSome_iff (s : Session) (lid : ℕ) :
    (get_layer s lid).isSome = true ↔ lid ∈ s.layers.map Layer.lid := by
  unfold get_layer
  rw [List.find?_isSome]
  constructor
  · rintro ⟨L, hm, hp⟩
    exact List.mem_map.mpr ⟨L, hm, by simpa using hp⟩
  · intro hm
    obtain ⟨L, hmem, hlid⟩ := List.mem_map.mp hm
    exact ⟨L, hmem, by simp [hlid]⟩

/-- With distinct layer ids, `mapLayer` inverts the id of any project
layer. -/
theorem get_layer_of_mem_nodup {s : Session} {L : Layer}
    (hnd : (s.layers.map Layer.lid).Nodup) (hm : L ∈ s.layers) :
    get_layer s L.lid = some L := by
  unfold get_layer
  rcases s with ⟨ls, stk⟩
  simp only at hnd hm ⊢
  induction ls with
  | nil => cases hm
  | cons a ls ih =>
    rcases List.mem_cons.mp hm with rfl | hm2
    · simp [List.find?_cons_of_pos]
    · have hal : a.lid ∉ ls.map Layer.lid := (List.nodup_cons.mp hnd).1
      have hne : (a.lid == L.lid) = false := by
        rw [beq_eq_false_iff_ne]
        intro hcon
        exact hal (hcon ▸ List.mem_map_of_mem Layer.lid hm2)
      rw [List.find?_cons_of_neg _ (by simp [hne])]
      exact ih (List.nodup_cons.mp hnd).2 hm2

/-- First-occurrence deduplication keeps exactly the members. -/
theorem mem_dedup_first (a : ℕ) :
    ∀ (n : ℕ) (l : List ℕ), l.length ≤ n → (a ∈ dedup_first l ↔ a ∈ l) := by
  intro n
  induction n with
  | zero =>
    intro l hl
    rw [Nat.le_zero, List.length_eq_zero] at hl
    subst hl
    rw [dedup_first]
  | succ n ih =>
    intro l hl
    cases l with
    | nil => rw [dedup_first]
    | cons b l2 =>
      rw [dedup_first, List.mem_cons, List.mem_cons,
        ih (l2.filter fun c => c ≠ b)
          (le_trans (List.length_filter_le _ l2) (Nat.succ_le_succ_iff.mp hl))]
      by_cases hab : a = b
      · simp [hab]
      · simp [hab, List.mem_filter]

/-- First-occurrence deduplication yields distinct elements. -/
theorem nodup_dedup_first :
    ∀ (n : ℕ) (l : List ℕ), l.length ≤ n → (dedup_first l).Nodup := by
  intro n
  induction n with
  | zero =>
    intro l hl
    rw [Nat.le_zero, List.length_eq_zero] at hl
    subst hl
    rw [dedup_first]
    exact List.nodup_nil
  | succ n ih =>
    intro l hl
    cases l with
    | nil =>
      rw [dedup_first]
      exact List.nodup_nil
    | cons b l2 =>
      rw [dedup_first]
      have hlen : (l2.filter fun c => c ≠ b).length ≤ n :=
        le_trans (List.length_filter_le _ l2) (Nat.succ_le_succ_iff.mp hl)
      refine List.Nodup.cons ?_ (ih _ hlen)
      intro hmem
      have := (mem_dedup_first b n _ hlen).mp hmem
      have := (List.mem_filter.mp this).2
      simp at this

/-- `Forall₂` holds reflexively for a reflexive relation. -/
theorem forall2_refl_of {R : Layer → Layer → Prop} (h : ∀ a, R a a) :
    ∀ l : List Layer, List.Forall₂ R l l := by
  intro l
  induction l with
  | nil => exact List.Forall₂.nil
  | cons a l ih => exact List.Forall₂.cons (h a) ih

/-- Mapping the left side of a `Forall₂` by a relation-preserving
function. -/
theorem forall2_map_left {R : Layer → Layer → Prop} (g : Layer → Layer)
    (h : ∀ a b, R a b → R (g a) b) :
    ∀ {l1 l2 : List Layer}, List.Forall₂ R l1 l2 →
      List.Forall₂ R (l1.map g) l2 := by
  intro l1 l2 hf
  induction hf with
  | nil => exact List.Forall₂.nil
  | cons hab _ ih => exact List.Forall₂.cons (h _ _ hab) ih

/-- A function equalized pairwise by a `Forall₂` collapses a map into
the right-hand list. -/
theorem forall2_map_eq {R : Layer → Layer → Prop} (f : Layer → Layer)
    (h : ∀ a b, R a b → f a = b) :
    ∀ {l1 l2 : List Layer}, List.Forall₂ R l1 l2 → l1.map f = l2 := by
  intro l1 l2 hf
  induction hf with
  | nil => rfl
  | cons hab _ ih => simp only [List.map_cons, h _ _ hab, ih]

/-- Two observables equalized pairwise by a `Forall₂` give equal
maps. -/
theorem forall2_maps_eq {R : Layer → Layer → Prop} {β : Type}
    (f g : Layer → β) (h : ∀ a b, R a b → f a = g b) :
    ∀ {l1 l2 : List Layer}, List.Forall₂ R l1 l2 → l1.map f = l2.map g := by
  intro l1 l2 hf
  induction hf with
  | nil => rfl
  | cons hab _ ih => simp only [List.map_cons, h _ _ hab, ih]

/-- A fold preserves any invariant each of its steps (on members of the
folded list) preserves. -/
theorem foldl_pres_mem {α : Type} (f : Session → α → Session)
    (P : Session → Prop) :
    ∀ l : List α, (∀ st a, a ∈ l → P st → P (f st a)) →
      ∀ st, P st → P (l.foldl f st) := by
  intro l
  induction l with
  | nil => intro _ st h; exact h
  | cons a l ih =>
    intro hstep st h
    rw [List.foldl_cons]
    exact ih (fun st b hb hst => hstep st b (List.mem_cons_of_mem a hb) hst) _
      (hstep st a (List.mem_cons_self a l) h)

/-- The mutation invariant forces equal layer-id sequences. -/
theorem mut_inv_lids {aff : List ℕ} {s0 st : Session}
    (h : mut_inv aff s0 st) :
    st.layers.map Layer.lid = s0.layers.map Layer.lid :=
  forall2_maps_eq Layer.lid Layer.lid
    (fun a b hr => congrArg Prod.fst hr.1) h

/-- A geometry write on an affected layer id preserves the mutation
invariant. -/
theorem set_layer_geom_mut_inv {aff : List ℕ} {s0 st : Session}
    {lid fid : ℕ} {g : List Vtx} (haff : lid ∈ aff)
    (h : mut_inv aff s0 st) :
    mut_inv aff s0 (set_layer_geom st lid fid g) := by
  unfold mut_inv set_layer_geom at *
  refine forall2_map_left _ ?_ h
  intro M L0 hr
  constructor
  · by_cases hm : M.lid = lid
    · simp only [if_pos hm, set_geom_skel]
      exact hr.1
    · simp only [if_neg hm]
      exact hr.1
  · intro hout
    have hML : M = L0 := hr.2 hout
    have hne : M.lid ≠ lid := by
      rw [hML]
      intro hcon
      exact hout (hcon ▸ haff)
    rw [if_neg hne, hML]

/-- One internal-correction step preserves the mutation invariant. -/
theorem apply_entry_mut_inv {nodes : List NodeRec} {s0 st : Session}
    (x y tz : ℚ) (e : NodeEntry) (he : e.layer_id ∈ all_lids nodes)
    (h : mut_inv (affected_lids nodes s0) s0 st) :
    mut_inv (affected_lids nodes s0) s0 (apply_entry x y tz st e) := by
  unfold apply_entry
  split
  · cases hL : get_layer st e.layer_id with
    | none => exact h
    | some L =>
      rw [Option.elim_some]
      cases get_feat L e.fid with
      | none => exact h
      | some f =>
        rw [Option.elim_some]
        refine set_layer_geom_mut_inv ?_ h
        have hsome_st : (get_layer st e.layer_id).isSome = true := by
          rw [hL]; rfl
        have hsome_s0 : (get_layer s0 e.layer_id).isSome = true := by
          rw [get_layer_isSome_iff] at hsome_st ⊢
          rwa [mut_inv_lids h] at hsome_st
        rw [affected_lids, mem_dedup_first e.layer_id _ _ le_rfl,
          List.mem_filter]
        exact ⟨he, hsome_s0⟩
  · exact h

/-- The whole mutation phase of `apply_internal` preserves the mutation
invariant. -/
theorem mutation_mut_inv (nodes : List NodeRec) (s0 : Session)
    (st : Session) (h : mut_inv (affected_lids nodes s0) s0 st) :
    mut_inv (affected_lids nodes s0) s0 (nodes.foldl apply_node st) := by
  refine foldl_pres_mem apply_node _ nodes ?_ st h
  intro st1 n hn hinv
  unfold apply_node
  refine foldl_pres_mem _ _ n.entries ?_ st1 hinv
  intro st2 e hee hinv2
  refine apply_entry_mut_inv n.x n.y (internal_target n) e ?_ hinv2
  unfold all_lids
  exact List.mem_flatMap.mpr
    ⟨n, hn, List.mem_map_of_mem NodeEntry.layer_id hee⟩

/-- The affected layers carry exactly the affected ids, in order. -/
theorem affected_layers_map_lid (nodes : List NodeRec) (s : Session) :
    (affected_layers nodes s).map Layer.lid = affected_lids nodes s := by
  unfold affected_layers
  have hmain : ∀ l : List ℕ, (∀ lid ∈ l, (get_layer s lid).isSome = true) →
      (l.filterMap (get_layer s)).map Layer.lid = l := by
    intro l
    induction l with
    | nil => intro _; rfl
    | cons lid l ih =>
      intro hl
      obtain ⟨L, hL⟩ := Option.isSome_iff_exists.mp
        (hl lid (List.mem_cons_self lid l))
      rw [List.filterMap_cons_some hL, List.map_cons, get_layer_lid hL,
        ih (fun z hz => hl z (List.mem_cons_of_mem lid hz))]
  refine hmain _ ?_
  intro lid hlid
  rw [affected_lids, mem_dedup_first lid _ _ le_rfl, List.mem_filter] at hlid
  exact hlid.2

/-- Snapshot ids are the affected ids. -/
theorem snap_lids (nodes : List NodeRec) (s : Session) :
    ((affected_layers nodes s).map snapshot_layer).map SnapLayer.layer_id =
      affected_lids nodes s := by
  rw [List.map_map]
  rw [show SnapLayer.layer_id ∘ snapshot_layer = Layer.lid from rfl]
  exact affected_layers_map_lid nodes s

/-- Saving the undo state leaves the layers alone. -/
theorem save_undo_state_layers (A : List Layer) (s : Session) :
    (save_undo_state A s).layers = s.layers := rfl

/-- The entry just pushed by `save_undo_state` is the newest stack
entry, whether or not the oldest entry was evicted. -/
theorem save_undo_state_getLast? (A : List Layer) (s : Session) :
    (save_undo_state A s).undo_stack.getLast? =
      some (A.map snapshot_layer) := by
  unfold save_undo_state
  show (if max_undo_levels <
      (s.undo_stack ++ [A.map snapshot_layer]).length then
      (s.undo_stack ++ [A.map snapshot_layer]).tail
    else s.undo_stack ++ [A.map snapshot_layer]).getLast? = _
  by_cases h : max_undo_levels <
      (s.undo_stack ++ [A.map snapshot_layer]).length
  · rw [if_pos h]
    cases hs : s.undo_stack with
    | nil =>
      rw [hs] at h
      simp [max_undo_levels] at h
    | cons b t =>
      rw [List.cons_append, List.tail_cons]
      exact List.getLast?_concat t
  · rw [if_neg h]
    exact List.getLast?_concat s.undo_stack

/-- A map by a pointwise-identity function is the identity. -/
theorem map_eq_self_of {l : List Layer} {f : Layer → Layer}
    (h : ∀ a ∈ l, f a = a) : l.map f = l := by
  induction l with
  | nil => rfl
  | cons a l ih =>
    rw [List.map_cons, h a (List.mem_cons_self a l),
      ih (fun b hb => h b (List.mem_cons_of_mem a hb))]

/-- Session-level restore writes equal a per-layer map. -/
theorem foldl_set_layer_geom_layers (lid : ℕ) :
    ∀ (prs : List (ℕ × List Vtx)) (st : Session),
      (prs.foldl (fun st pr => set_layer_geom st lid pr.1 pr.2) st).layers =
        st.layers.map fun M =>
          if M.lid = lid then restore_feats M prs else M := by
  intro prs
  induction prs with
  | nil =>
    intro st
    rw [List.foldl_nil]
    refine (map_eq_self_of ?_).symm
    intro M _
    rw [show restore_feats M [] = M from rfl, ite_self]
  | cons pr prs ih =>
    intro st
    rw [List.foldl_cons, ih]
    show (st.layers.map fun L =>
      if L.lid = lid then set_geom L pr.1 pr.2 else L).map _ = _
    rw [List.map_map]
    apply List.map_congr_left
    intro M _
    by_cases h : M.lid = lid
    · simp only [Function.comp, if_pos h]
      rw [if_pos (by rw [set_geom_lid]; exact h)]
      rfl
    · simp only [Function.comp, if_neg h]

/-- One snapshot layer's restore as a per-layer map. -/
theorem restore_snap_layer_layers (st : Session) (sl : SnapLayer) :
    (restore_snap_layer st sl).layers =
      st.layers.map fun M =>
        if (get_layer st sl.layer_id).isSome = true ∧ M.lid = sl.layer_id
        then restore_feats M sl.feats else M := by
  unfold restore_snap_layer
  by_cases h : (get_layer st sl.layer_id).isSome = true
  · rw [if_pos h, foldl_set_layer_geom_layers]
    apply List.map_congr_left
    intro M _
    by_cases hm : M.lid = sl.layer_id
    · rw [if_pos hm, if_pos ⟨h, hm⟩]
    · rw [if_neg hm, if_neg (fun hc => hm hc.2)]
  · rw [if_neg h]
    refine (map_eq_self_of ?_).symm
    intro M _
    rw [if_neg (fun hc => h hc.1)]

/-- Restores keep the layer-id sequence. -/
theorem restore_snap_layer_lids (st : Session) (sl : SnapLayer) :
    (restore_snap_layer st sl).layers.map Layer.lid =
      st.layers.map Layer.lid := by
  rw [restore_snap_layer_layers, List.map_map]
  apply List.map_congr_left
  intro M _
  by_cases h : (get_layer st sl.layer_id).isSome = true ∧
      M.lid = sl.layer_id
  · simp only [Function.comp, if_pos h, restore_feats_lid]
  · simp only [Function.comp, if_neg h]

/-- The whole restore fold as a per-layer map (the resolvability checks
all read the unchanged id sequence). -/
theorem restore_fold_layers :
    ∀ (snap : List SnapLayer) (st : Session),
      (snap.foldl restore_snap_layer st).layers =
        st.layers.map fun M =>
          snap.foldl (fun N sl =>
            if sl.layer_id ∈ st.layers.map Layer.lid ∧ N.lid = sl.layer_id
            then restore_feats N sl.feats else N) M := by
  intro snap
  induction snap with
  | nil =>
    intro st
    rw [List.foldl_nil]
    exact (map_eq_self_of (fun M _ => rfl)).symm
  | cons sl snap ih =>
    intro st
    rw [List.foldl_cons, ih (restore_snap_layer st sl)]
    simp only [restore_snap_layer_lids]
    rw [restore_snap_layer_layers, List.map_map]
    apply List.map_congr_left
    intro M _
    simp only [Function.comp]
    rw [List.foldl_cons]
    have hcond : ((get_layer st sl.layer_id).isSome = true ∧
        M.lid = sl.layer_id) ↔
        (sl.layer_id ∈ st.layers.map Layer.lid ∧ M.lid = sl.layer_id) := by
      rw [get_layer_isSome_iff]
    rw [if_congr hcond rfl rfl]

/-- A layer whose id none of the snapshot entries carries is untouched
by the per-layer restore fold. -/
theorem per_layer_fold_skip (lids0 : List ℕ) :
    ∀ (snap : List SnapLayer) (M : Layer),
      M.lid ∉ snap.map SnapLayer.layer_id →
      snap.foldl (fun N sl =>
        if sl.layer_id ∈ lids0 ∧ N.lid = sl.layer_id
        then restore_feats N sl.feats else N) M = M := by
  intro snap
  induction snap with
  | nil => intro M _; rfl
  | cons sl snap ih =>
    intro M hM
    rw [List.foldl_cons,
      if_neg (fun hc => hM (List.mem_cons.mpr (Or.inl hc.2)))]
    exact ih M (fun hc => hM (List.mem_cons_of_mem _ hc))

/-- A layer whose id matches exactly one snapshot entry is rewritten by
exactly that entry. -/
theorem per_layer_fold_hit (lids0 : List ℕ) :
    ∀ (snap : List SnapLayer) (M : Layer),
      (snap.map SnapLayer.layer_id).Nodup →
      ∀ sl ∈ snap, M.lid = sl.layer_id → sl.layer_id ∈ lids0 →
      snap.foldl (fun N sl =>
        if sl.layer_id ∈ lids0 ∧ N.lid = sl.layer_id
        then restore_feats N sl.feats else N) M = restore_feats M sl.feats := by
  intro snap
  induction snap with
  | nil => intro M _ sl h; cases h
  | cons sl0 snap ih =>
    intro M hnd sl hsl hMlid hlid0
    rcases List.mem_cons.mp hsl with rfl | htail
    · rw [List.foldl_cons, if_pos ⟨hlid0, hMlid⟩]
      apply per_layer_fold_skip
      rw [restore_feats_lid, hMlid]
      exact (List.nodup_cons.mp hnd).1
    · have hne : M.lid ≠ sl0.layer_id := by
        rw [hMlid]
        intro hcon
        exact (List.nodup_cons.mp hnd).1
          (hcon ▸ List.mem_map_of_mem SnapLayer.layer_id htail)
      rw [List.foldl_cons, if_neg (fun hc => hne hc.2)]
      exact ih M (List.nodup_cons.mp hnd).2 sl htail hMlid hlid0

/-- A restore write whose key matches goes through the geometry. -/
theorem restore_feat_cons_pos {f : Feature} {pr : ℕ × List Vtx}
    (h : f.fid = pr.1) (prs : List (ℕ × List Vtx)) :
    restore_feat f (pr :: prs) = restore_feat { f with geom := pr.2 } prs := by
  unfold restore_feat
  rw [List.foldl_cons, if_pos h]

/-- A restore write whose key differs is skipped. -/
theorem restore_feat_cons_neg {f : Feature} {pr : ℕ × List Vtx}
    (h : f.fid ≠ pr.1) (prs : List (ℕ × List Vtx)) :
    restore_feat f (pr :: prs) = restore_feat f prs := by
  unfold restore_feat
  rw [List.foldl_cons, if_neg h]

/-- A feature whose id no stored key carries is untouched by the
restore writes. -/
theorem restore_feat_skip :
    ∀ (prs : List (ℕ × List Vtx)) (f : Feature),
      f.fid ∉ prs.map Prod.fst → restore_feat f prs = f := by
  intro prs
  induction prs with
  | nil => intro f _; rfl
  | cons pr prs ih =>
    intro f hf
    rw [restore_feat_cons_neg
      (fun hc => hf (List.mem_cons.mpr (Or.inl hc)))]
    exact ih f (fun hc => hf (List.mem_cons_of_mem _ hc))

/-- Layer-level restore equals feature-level restore, feature by
feature. -/
theorem restore_feats_feats (prs : List (ℕ × List Vtx)) :
    ∀ L : Layer,
      (restore_feats L prs).feats = L.feats.map fun f => restore_feat f prs := by
  induction prs with
  | nil =>
    intro L
    symm
    calc L.feats.map (fun f => restore_feat f []) = L.feats.map id := by
          apply List.map_congr_left
          intro f _
          rfl
      _ = L.feats := List.map_id L.feats
  | cons pr prs ih =>
    intro L
    show (restore_feats (set_geom L pr.1 pr.2) prs).feats = _
    rw [ih (set_geom L pr.1 pr.2)]
    show (L.feats.map fun f =>
      if f.fid = pr.1 then { f with geom := pr.2 } else f).map _ = _
    rw [List.map_map]
    apply List.map_congr_left
    intro f _
    simp only [Function.comp]
    by_cases h : f.fid = pr.1
    · rw [if_pos h, restore_feat_cons_pos h]
    · rw [if_neg h, restore_feat_cons_neg h]

/-- Restoring the snapshot of an original feature list onto any feature
list with the same ids (distinct) reproduces the original exactly. -/
theorem restore_map :
    ∀ feats0 featsM : List Feature,
      featsM.map Feature.fid = feats0.map Feature.fid →
      (feats0.map Feature.fid).Nodup →
      featsM.map (fun f =>
        restore_feat f (feats0.map fun g => (g.fid, g.geom))) = feats0 := by
  intro feats0
  induction feats0 with
  | nil =>
    intro featsM hmap _
    rw [List.map_nil, List.map_eq_nil_iff] at hmap
    subst hmap
    rfl
  | cons g feats0 ih =>
    intro featsM hmap hnd
    cases featsM with
    | nil => simp at hmap
    | cons f featsM2 =>
      simp only [List.map_cons, List.cons.injEq] at hmap
      obtain ⟨hfid, htail⟩ := hmap
      simp only [List.map_cons] at hnd
      have hnd2 := List.nodup_cons.mp hnd
      rw [List.map_cons, List.map_cons]
      congr 1
      · rw [restore_feat_cons_pos hfid, restore_feat_skip]
        · show Feature.mk f.fid g.geom = g
          rw [hfid]
        · show f.fid ∉ (feats0.map fun g => (g.fid, g.geom)).map Prod.fst
          rw [List.map_map,
            show (Prod.fst ∘ fun g : Feature => (g.fid, g.geom)) =
              Feature.fid from rfl, hfid]
          exact hnd2.1
      · have hstep : ∀ f2 ∈ featsM2,
            restore_feat f2 ((g.fid, g.geom) ::
              (feats0.map fun g => (g.fid, g.geom))) =
            restore_feat f2 (feats0.map fun g => (g.fid, g.geom)) := by
          intro f2 hf2
          apply restore_feat_cons_neg
          intro hcon
          have hcon2 : f2.fid = g.fid := hcon
          have h1 : f2.fid ∈ feats0.map Feature.fid :=
            htail ▸ List.mem_map_of_mem Feature.fid hf2
          exact hnd2.1 (hcon2 ▸ h1)
        rw [List.map_congr_left hstep]
        exact ih featsM2 htail hnd2.2

/-- Restoring a layer's snapshot onto any same-shape layer reproduces
the original layer exactly. -/
theorem restore_feats_eq {L0 M : Layer}
    (hskel : layer_skel M = layer_skel L0)
    (hnd : (L0.feats.map Feature.fid).Nodup) :
    restore_feats M (snapshot_layer L0).feats = L0 := by
  have hlid : M.lid = L0.lid := congrArg Prod.fst hskel
  have hfids : M.feats.map Feature.fid = L0.feats.map Feature.fid :=
    congrArg Prod.snd hskel
  have h1 : (restore_feats M (snapshot_layer L0).feats).lid = L0.lid := by
    rw [restore_feats_lid]
    exact hlid
  have h2 : (restore_feats M (snapshot_layer L0).feats).feats = L0.feats := by
    rw [restore_feats_feats,
      show (snapshot_layer L0).feats =
        L0.feats.map (fun g => (g.fid, g.geom)) from rfl]
    exact restore_map L0.feats M.feats hfids hnd
  calc restore_feats M (snapshot_layer L0).feats
      = ⟨(restore_feats M (snapshot_layer L0).feats).lid,
         (restore_feats M (snapshot_layer L0).feats).feats⟩ := rfl
    _ = ⟨L0.lid, L0.feats⟩ := by rw [h1, h2]
    _ = L0 := rfl

/-- A function equalized pairwise (with membership) by a `Forall₂`
collapses a map into the right-hand list. -/
theorem forall2_map_eq_mem {R : Layer → Layer → Prop} (f : Layer → Layer) :
    ∀ {l1 l2 : List Layer}, List.Forall₂ R l1 l2 →
      (∀ a b, a ∈ l1 → b ∈ l2 → R a b → f a = b) → l1.map f = l2 := by
  intro l1 l2 hf
  induction hf with
  | nil => intro _; rfl
  | cons hab htail ih =>
    intro h
    rw [List.map_cons,
      h _ _ (List.mem_cons_self _ _) (List.mem_cons_self _ _) hab,
      ih (fun a b ha hb hr =>
        h a b (List.mem_cons_of_mem _ ha) (List.mem_cons_of_mem _ hb) hr)]

/-- C3 (amended): for the internal correction, applying the correction
and then undoing restores every layer — and hence every affected
feature's geometry — exactly to its pre-correction state, under the
identifying assumptions the host guarantees (distinct layer ids in the
project, distinct feature ids within a layer).  External and contour
corrections push no snapshot, so undo does not revert them. -/
theorem undo_round_trip_internal (nodes : List NodeRec) (s : Session)
    (hne : nodes ≠ [])
    (hlid : (s.layers.map Layer.lid).Nodup)
    (hfid : ∀ L ∈ s.layers, (L.feats.map Feature.fid).Nodup) :
    (undo_last_correction (apply_internal nodes s)).layers = s.layers := by
  unfold apply_internal
  rw [if_neg hne]
  set s2 := nodes.foldl apply_node
    (save_undo_state (affected_layers nodes s) s) with hs2
  have hstack : s2.undo_stack =
      (save_undo_state (affected_layers nodes s) s).undo_stack := by
    rw [hs2]
    exact foldl_obs_invariant Session.undo_stack apply_node
      apply_node_undo_stack nodes _
  have hlast : s2.undo_stack.getLast? =
      some ((affected_layers nodes s).map snapshot_layer) := by
    rw [hstack]
    exact save_undo_state_getLast? _ s
  unfold undo_last_correction
  rw [hlast, Option.elim_some, restore_fold_layers]
  have hinv : mut_inv (affected_lids nodes s) s s2 := by
    rw [hs2]
    apply mutation_mut_inv
    unfold mut_inv
    rw [save_undo_state_layers]
    exact forall2_refl_of (fun L => ⟨rfl, fun _ => rfl⟩) s.layers
  have hlayers :
      ({ s2 with undo_stack := s2.undo_stack.dropLast } : Session).layers =
        s2.layers := rfl
  have hlids : s2.layers.map Layer.lid = s.layers.map Layer.lid :=
    mut_inv_lids hinv
  simp only [hlayers, hlids]
  refine forall2_map_eq_mem _ hinv ?_
  intro M L0 hM hL0 hr
  have hMlid : M.lid = L0.lid := congrArg Prod.fst hr.1
  by_cases haff : L0.lid ∈ affected_lids nodes s
  · have hget : get_layer s L0.lid = some L0 := get_layer_of_mem_nodup hlid hL0
    have hmem_aff : L0 ∈ affected_layers nodes s := by
      unfold affected_layers
      exact List.mem_filterMap.mpr ⟨L0.lid, haff, hget⟩
    have hnd_snap : (((affected_layers nodes s).map snapshot_layer).map
        SnapLayer.layer_id).Nodup := by
      rw [snap_lids]
      exact nodup_dedup_first _ _ le_rfl
    rw [per_layer_fold_hit (s.layers.map Layer.lid) _ M hnd_snap
      (snapshot_layer L0) (List.mem_map_of_mem snapshot_layer hmem_aff)
      hMlid (List.mem_map_of_mem Layer.lid hL0)]
    exact restore_feats_eq hr.1 (hfid L0 hL0)
  · rw [per_layer_fold_skip (s.layers.map Layer.lid) _ M ?_]
    · exact hr.2 haff
    · rw [snap_lids, hMlid]
      exact haff

/-- Witness for the amended C3: on `c3_session`, applying the internal
correction for its problem node and undoing restores the layers
exactly. -/
theorem undo_round_trip_internal_witness :
    (undo_last_correction (apply_internal c3_nodes c3_session)).layers =
      c3_session.layers :=
  undo_round_trip_internal c3_nodes c3_session (by simp [c3_nodes])
    (by decide) (by decide)

end ZCC
